import Mathlib

/-!
Verification of the text/HTML conversion utility of h5p-editor-idea-board
(`src/scripts/services/util.js`): `htmlToText` and `textToCardHTMLs`.

The JavaScript functions are shallowly embedded over `List Char`.  The
DOM tree that `htmlToText` builds from its input via `innerHTML` is
modelled by the inductive type `Node` (text nodes, `<br>` elements and
`<p>` elements); since the temporary `div` is never attached to a
document, `innerText` falls back to `textContent`, which is modelled
exactly.  JavaScript's notion of whitespace (used by `String.trim` and
by `\s` in regular expressions, and which includes the non-breaking
space) is modelled by `isJsSpace`.
-/

/-- The ECMAScript whitespace class: the characters matched by `\s` in a
regular expression and stripped by `String.prototype.trim`. -/
def isJsSpace (c : Char) : Bool :=
  c = '\u0020' || c = '\u0009' || c = '\u000A' || c = '\u000D' || c = '\u000B' ||
  c = '\u000C' || c = '\u00A0' || c = '\u1680' || ('\u2000' ≤ c && c ≤ '\u200A') ||
  c = '\u2028' || c = '\u2029' || c = '\u202F' || c = '\u205F' || c = '\u3000' ||
  c = '\uFEFF'

/-- JavaScript `String.prototype.trim`: drop leading and trailing
ECMAScript whitespace. -/
def jsTrim (cs : List Char) : List Char :=
  ((cs.dropWhile isJsSpace).reverse.dropWhile isJsSpace).reverse

/-- JavaScript `section.split(/\n/)`: split a string at every newline
character.  Always returns a non-empty list of lines. -/
def splitOnNL : List Char → List (List Char)
  | [] => [[]]
  | c :: rest =>
    if c = '\n' then [] :: splitOnNL rest
    else
      match splitOnNL rest with
      | [] => [[c]]
      | l :: ls => (c :: l) :: ls

/-- Join a list of character lists with a separator (JavaScript
`Array.prototype.join`). -/
def joinSep (sep : List Char) : List (List Char) → List Char
  | [] => []
  | [x] => x
  | x :: xs => x ++ sep ++ joinSep sep xs

/-- One step of the scan for `text.split(/\n\s*\n/)`: fuelled worker.
At a newline it looks ahead at the maximal run of `\s` characters; if
that run contains another newline, the greedy match `/\n\s*\n/` extends
up to (and including) the last newline of the run, closing the current
section. -/
def splitSepGo : Nat → List Char → List Char → List (List Char) → List (List Char)
  | _, [], cur, acc => acc ++ [cur]
  | 0, cs, cur, acc => acc ++ [cur ++ cs]
  | fuel + 1, c :: rest, cur, acc =>
    if c = '\n' then
      let w := rest.takeWhile isJsSpace
      if w.contains '\n' then
        let t := (w.reverse.takeWhile (fun d => d != '\n')).length
        splitSepGo fuel (rest.drop (w.length - t)) [] (acc ++ [cur])
      else
        splitSepGo fuel rest (cur ++ ['\n']) acc
    else
      splitSepGo fuel rest (cur ++ [c]) acc

/-- JavaScript `text.split(/\n\s*\n/)`. -/
def splitSections (cs : List Char) : List (List Char) :=
  splitSepGo cs.length cs [] []

/-- The surviving trimmed lines of a section: `section.split(/\n/)`,
each line trimmed, empty lines discarded (source lines 75–78). -/
def cleanedLines (sec : List Char) : List (List Char) :=
  ((splitOnNL sec).map jsTrim).filter (fun l => !l.isEmpty)

/-- The wrapper prefix of a card fragment. -/
def pOpen : List Char := "<p style=\"text-align:center;\">".data

/-- The wrapper suffix of a card fragment. -/
def pClose : List Char := "</p>".data

/-- The HTML fragment built from one (already trimmed) section: the
surviving lines joined with `<br>` and wrapped in a centered paragraph
(source line 80). -/
def cardHTMLOfSection (sec : List Char) : List Char :=
  pOpen ++ joinSep "<br>".data (cleanedLines sec) ++ pClose

/-- The JavaScript return value of `textToCardHTMLs`: either the string
sentinel `''` (falsy input) or an array of HTML fragment strings. -/
inductive TextToCardResult where
  | str : String → TextToCardResult
  | arr : List String → TextToCardResult
deriving DecidableEq

/-- `textToCardHTMLs` (source lines 65–82): falsy input returns the
string `''`; otherwise split on `/\n\s*\n/`, trim the sections, drop the
empty ones, and wrap each one as a centered paragraph. -/
def textToCardHTMLs (s : String) : TextToCardResult :=
  if s = "" then .str "" else
    .arr ((((splitSections s.data).map jsTrim).filter
      (fun sec => !sec.isEmpty)).map (fun sec => String.mk (cardHTMLOfSection sec)))

/-- A JavaScript argument of declared type `string` that may also be
`null` or `undefined`. -/
inductive JsStringArg where
  | undef : JsStringArg
  | null : JsStringArg
  | str : String → JsStringArg

/-- `textToCardHTMLs` on a possibly-absent argument: `null` and
`undefined` are falsy, so they take the `return ''` branch. -/
def textToCardHTMLsJs : JsStringArg → TextToCardResult
  | .undef => .str ""
  | .null => .str ""
  | .str s => textToCardHTMLs s

/-- A node of the DOM fragment that `htmlToText` builds with
`tempDiv.innerHTML = html`: a text node, a `<br>` element, or a `<p>`
element with a list of child nodes (the inputs of this utility contain
no other markup). -/
inductive Node where
  | text : List Char → Node
  | br : Node
  | p : List Node → Node

mutual

/-- `Node.textContent` of a single node. -/
def textContentN : Node → List Char
  | .text cs => cs
  | .br => []
  | .p children => textContentL children

/-- `textContent` of a list of sibling nodes (concatenation of the text
data of all descendant text nodes). -/
def textContentL : List Node → List Char
  | [] => []
  | n :: ns => textContentN n ++ textContentL ns

end

mutual

/-- First half of `processLineBreaks` (source line 26): every `<br>`
element is replaced by a text node holding a literal newline. -/
def replaceBrN : Node → Node
  | .text cs => .text cs
  | .br => .text ['\n']
  | .p children => .p (replaceBrL children)

/-- `replaceBrN` applied to every node of a sibling list. -/
def replaceBrL : List Node → List Node
  | [] => []
  | n :: ns => replaceBrN n :: replaceBrL ns

end

mutual

/-- Second half of `processLineBreaks` applied inside one node. -/
def insertAfterPsN : Node → Node
  | .text cs => .text cs
  | .br => .br
  | .p children => .p (insertAfterPsL children)

/-- Second half of `processLineBreaks` (source lines 28–32): after every
`<p>` element that has a next sibling, a text node holding one newline
is inserted (`insertAdjacentText('afterend', '\n')`); the last sibling
gets nothing. -/
def insertAfterPsL : List Node → List Node
  | [] => []
  | [n] => [insertAfterPsN n]
  | n :: m :: rest =>
    match n with
    | .p children =>
      .p (insertAfterPsL children) :: .text ['\n'] :: insertAfterPsL (m :: rest)
    | other => insertAfterPsN other :: insertAfterPsL (m :: rest)

end

mutual

/-- Number of nodes of a tree (used as fuel below). -/
def sizeN : Node → Nat
  | .text _ => 1
  | .br => 1
  | .p children => 1 + sizeL children

/-- Number of nodes of a forest. -/
def sizeL : List Node → Nat
  | [] => 0
  | n :: ns => sizeN n + sizeL ns

end

/-- Fuelled worker for `removeEmptyParagraphsL`. -/
def remEmptyF : Nat → List Node → List Node
  | 0, ns => ns
  | _ + 1, [] => []
  | fuel + 1, .p children :: rest =>
    if jsTrim (textContentL children) = [] ∨ jsTrim (textContentL children) = ['\u00A0']
    then remEmptyF fuel rest
    else .p (remEmptyF fuel children) :: remEmptyF fuel rest
  | fuel + 1, n :: rest => n :: remEmptyF fuel rest

/-- `removeEmptyParagraphs` (source lines 39–46): every `<p>` element
whose trimmed `textContent` is `''` or a single non-breaking space is
detached from its parent. -/
def removeEmptyParagraphsL (ns : List Node) : List Node :=
  remEmptyF (sizeL ns) ns

/-- Fuelled worker for `collapseNL`. -/
def collapseNLF : Nat → List Char → List Char
  | _, [] => []
  | 0, cs => cs
  | fuel + 1, c :: rest =>
    if c = '\n' then '\n' :: collapseNLF fuel (rest.dropWhile (fun d => d = '\n'))
    else c :: collapseNLF fuel rest

/-- `text.replace(/\n{2,}/g, '\n')`: every maximal run of newlines is
collapsed to a single newline. -/
def collapseNL (cs : List Char) : List Char :=
  collapseNLF cs.length cs

/-- `cleanupText` (source lines 53–58): replace every non-breaking space
by an ordinary space, collapse newline runs, then trim. -/
def cleanupText (cs : List Char) : List Char :=
  jsTrim (collapseNL (cs.map (fun c => if c = '\u00A0' then ' ' else c)))

/-- Scan for the closing tag `</p>`: returns the characters before the
first occurrence of `</p>` and the characters after it (the whole input
and `[]` when there is none). -/
def splitAtClose : List Char → List Char × List Char
  | '<' :: '/' :: 'p' :: '>' :: rest => ([], rest)
  | c :: rest =>
    let r := splitAtClose rest
    (c :: r.1, r.2)
  | [] => ([], [])

/-- Classification of what follows a `<` character. -/
inductive TagTok where
  | brT : List Char → TagTok
  | pT : List Char → TagTok
  | closeT : List Char → TagTok
  | otherT : TagTok

/-- Classify the characters after a `<`: a `<br>` tag, an opening `<p>`
tag (with or without attributes; for an attributed tag the attribute
characters up to the closing `>` are consumed), a closing `</p>` tag, or
none of these (the `<` is then literal text).  The payload is the input
position right after the recognised tag. -/
def tagOf (rest : List Char) : TagTok :=
  match rest with
  | 'b' :: 'r' :: '>' :: r2 => .brT r2
  | 'p' :: '>' :: r2 => .pT r2
  | 'p' :: ' ' :: r2 => .pT (r2.drop ((r2.takeWhile (fun d => d != '>')).length + 1))
  | '/' :: 'p' :: '>' :: r2 => .closeT r2
  | _ => .otherT

/-- Recognise the entity `&nbsp;` after a `&` character. -/
def entityOf (rest : List Char) : Option (List Char) :=
  match rest with
  | 'n' :: 'b' :: 's' :: 'p' :: ';' :: r2 => some r2
  | _ => none

/-- Fuelled worker of the HTML fragment parser (the browser's `innerHTML`
parser restricted to the markup this utility produces and consumes:
`<p …>…</p>`, `<br>`, `&nbsp;`, and plain text). -/
def parseNodesF : Nat → List Char → List Node
  | _, [] => []
  | 0, _ :: _ => []
  | fuel + 1, c :: rest =>
    if c = '<' then
      match tagOf rest with
      | .brT r2 => .br :: parseNodesF fuel r2
      | .pT after =>
        .p (parseNodesF fuel (splitAtClose after).1) :: parseNodesF fuel (splitAtClose after).2
      | .closeT r2 => parseNodesF fuel r2
      | .otherT => .text ['<'] :: parseNodesF fuel rest
    else if c = '&' then
      match entityOf rest with
      | some r2 => .text ['\u00A0'] :: parseNodesF fuel r2
      | none => .text ['&'] :: parseNodesF fuel rest
    else
      let chunk := (c :: rest).takeWhile (fun d => d != '<' && d != '&')
      .text chunk :: parseNodesF fuel ((c :: rest).drop chunk.length)

/-- Parse an HTML fragment string into a list of sibling nodes. -/
def parseNodes (cs : List Char) : List Node :=
  parseNodesF cs.length cs

/-- The whole `htmlToText` pipeline after parsing (source lines 12–18):
`processLineBreaks` (replace `<br>`, then insert a newline after every
`<p>` with a next sibling), `removeEmptyParagraphs`, extract the text
(the temporary `div` is detached, so `innerText` falls back to
`textContent`), and `cleanupText`. -/
def htmlToTextTree (ns : List Node) : List Char :=
  cleanupText (textContentL (removeEmptyParagraphsL (insertAfterPsL (replaceBrL ns))))

/-- `htmlToText` (source lines 6–19): falsy input returns `''`;
otherwise the input is parsed into a DOM fragment and run through the
pipeline. -/
def htmlToText (s : String) : String :=
  if s = "" then "" else String.mk (htmlToTextTree (parseNodes s.data))

/-- `htmlToText` on a possibly-absent argument: `null` and `undefined`
are falsy, so they take the `return ''` branch. -/
def htmlToTextJs : JsStringArg → String
  | .undef => ""
  | .null => ""
  | .str s => htmlToText s

/-- The `text.split(/\n\s*\n/)` scan with exact fuel: the form all
reasoning is done in. -/
def splitGo (cs cur : List Char) (acc : List (List Char)) : List (List Char) :=
  splitSepGo cs.length cs cur acc

/-- `true` when the string contains a match of the paragraph separator
`/\n\s*\n/`: a newline whose following run of whitespace contains
another newline. -/
def hasSep : List Char → Bool
  | [] => false
  | c :: rest => (c = '\n' && (rest.takeWhile isJsSpace).contains '\n') || hasSep rest

/-- The canonical form of a plain-text paragraph: its lines, each
trimmed, with blank lines dropped, joined by single newlines. -/
def canonText (s : String) : String :=
  String.mk (joinSep ['\n'] (cleanedLines s.data))

/-- The first element of an array result (the `[0]` access of the
round-trip property). -/
def firstFragment : TextToCardResult → String
  | .arr (f :: _) => f
  | _ => ""

/-- `true` when the string contains two adjacent newline characters. -/
def hasNN : List Char → Bool
  | [] => false
  | [_] => false
  | a :: b :: rest => (a = '\n' && b = '\n') || hasNN (b :: rest)

/-- The sibling nodes of a card fragment body: the lines as text nodes
interleaved with `<br>` elements. -/
def brNodes : List (List Char) → List Node
  | [] => []
  | [l] => [Node.text l]
  | l :: rest => Node.text l :: Node.br :: brNodes rest

theorem sizeN_pos (n : Node) : 1 ≤ sizeN n := by
  cases n <;> simp [sizeN]

theorem remEmptyF_irrel : ∀ (k f1 f2 : Nat) (ns : List Node), sizeL ns ≤ k →
    sizeL ns ≤ f1 → sizeL ns ≤ f2 → remEmptyF f1 ns = remEmptyF f2 ns := by
  intro k
  induction k with
  | zero =>
    intro f1 f2 ns _ _ _
    cases ns with
    | nil => cases f1 <;> cases f2 <;> simp [remEmptyF]
    | cons n rest =>
      exfalso
      have h1 := sizeN_pos n
      simp_all [sizeL]
  | succ k ih =>
    intro f1 f2 ns hk h1 h2
    cases ns with
    | nil => cases f1 <;> cases f2 <;> simp [remEmptyF]
    | cons n rest =>
      have hn := sizeN_pos n
      have hsz : sizeL (n :: rest) = sizeN n + sizeL rest := by simp [sizeL]
      cases f1 with
      | zero => omega
      | succ g1 =>
        cases f2 with
        | zero => omega
        | succ g2 =>
          cases n with
          | text cs => simpa [remEmptyF] using ih g1 g2 rest (by omega) (by omega) (by omega)
          | br => simpa [remEmptyF] using ih g1 g2 rest (by omega) (by omega) (by omega)
          | p ch =>
            have hch : sizeN (Node.p ch) = 1 + sizeL ch := by simp [sizeN]
            simp only [remEmptyF]
            by_cases hg : jsTrim (textContentL ch) = [] ∨ jsTrim (textContentL ch) = ['\u00A0']
            · rw [if_pos hg, if_pos hg]
              exact ih g1 g2 rest (by omega) (by omega) (by omega)
            · rw [if_neg hg, if_neg hg]
              rw [ih g1 g2 ch (by omega) (by omega) (by omega),
                  ih g1 g2 rest (by omega) (by omega) (by omega)]

theorem remEmptyF_eq (f : Nat) (ns : List Node) (h : sizeL ns ≤ f) :
    remEmptyF f ns = removeEmptyParagraphsL ns :=
  remEmptyF_irrel f f (sizeL ns) ns h h (le_refl _)

theorem removeEmptyParagraphsL_nil : removeEmptyParagraphsL [] = [] := rfl

theorem removeEmptyParagraphsL_p (ch rest : List Node) :
    removeEmptyParagraphsL (.p ch :: rest) =
      if jsTrim (textContentL ch) = [] ∨ jsTrim (textContentL ch) = ['\u00A0']
      then removeEmptyParagraphsL rest
      else .p (removeEmptyParagraphsL ch) :: removeEmptyParagraphsL rest := by
  have hsz : sizeL (Node.p ch :: rest) = (sizeL ch + sizeL rest) + 1 := by
    simp [sizeL, sizeN] ; omega
  have h1 : removeEmptyParagraphsL (Node.p ch :: rest)
      = remEmptyF ((sizeL ch + sizeL rest) + 1) (Node.p ch :: rest) := by
    rw [← hsz] ; rfl
  rw [h1]
  simp only [remEmptyF]
  by_cases hg : jsTrim (textContentL ch) = [] ∨ jsTrim (textContentL ch) = ['\u00A0']
  · rw [if_pos hg, if_pos hg]
    exact remEmptyF_eq _ _ (by omega)
  · rw [if_neg hg, if_neg hg, remEmptyF_eq _ _ (by omega), remEmptyF_eq _ _ (by omega)]

theorem removeEmptyParagraphsL_text (cs : List Char) (rest : List Node) :
    removeEmptyParagraphsL (.text cs :: rest) = .text cs :: removeEmptyParagraphsL rest := by
  have hsz : sizeL (Node.text cs :: rest) = sizeL rest + 1 := by simp [sizeL, sizeN] ; omega
  have h1 : removeEmptyParagraphsL (Node.text cs :: rest)
      = remEmptyF (sizeL rest + 1) (Node.text cs :: rest) := by
    rw [← hsz] ; rfl
  rw [h1]
  simp only [remEmptyF]
  rw [remEmptyF_eq _ _ (by omega)]

theorem removeEmptyParagraphsL_br (rest : List Node) :
    removeEmptyParagraphsL (.br :: rest) = .br :: removeEmptyParagraphsL rest := by
  have hsz : sizeL (Node.br :: rest) = sizeL rest + 1 := by simp [sizeL, sizeN] ; omega
  have h1 : removeEmptyParagraphsL (Node.br :: rest)
      = remEmptyF (sizeL rest + 1) (Node.br :: rest) := by
    rw [← hsz] ; rfl
  rw [h1]
  simp only [remEmptyF]
  rw [remEmptyF_eq _ _ (by omega)]

theorem dropWhile_length_le (p : Char → Bool) (l : List Char) :
    (l.dropWhile p).length ≤ l.length := by
  induction l with
  | nil => simp [List.dropWhile]
  | cons c rest ih =>
    simp only [List.dropWhile]
    by_cases h : p c
    · simp [h] ; omega
    · simp [h]

theorem takeWhile_length_le (p : Char → Bool) (l : List Char) :
    (l.takeWhile p).length ≤ l.length := by
  induction l with
  | nil => simp [List.takeWhile]
  | cons c rest ih =>
    simp only [List.takeWhile]
    by_cases h : p c
    · simp [h] ; omega
    · simp [h]

theorem collapseNLF_irrel : ∀ (k f1 f2 : Nat) (cs : List Char), cs.length ≤ k →
    cs.length ≤ f1 → cs.length ≤ f2 → collapseNLF f1 cs = collapseNLF f2 cs := by
  intro k
  induction k with
  | zero =>
    intro f1 f2 cs hk _ _
    have hnil : cs = [] := by cases cs <;> simp_all
    subst hnil
    cases f1 <;> cases f2 <;> rfl
  | succ k ih =>
    intro f1 f2 cs hk h1 h2
    cases cs with
    | nil => cases f1 <;> cases f2 <;> rfl
    | cons c rest =>
      cases f1 with
      | zero => exact absurd h1 (by simp)
      | succ g1 =>
        cases f2 with
        | zero => exact absurd h2 (by simp)
        | succ g2 =>
          simp only [collapseNLF]
          by_cases hc : c = '\n'
          · rw [if_pos hc, if_pos hc]
            simp only [List.length_cons] at hk h1 h2
            exact congrArg _ (ih g1 g2 _
              (le_trans (dropWhile_length_le _ _) (by omega))
              (le_trans (dropWhile_length_le _ _) (by omega))
              (le_trans (dropWhile_length_le _ _) (by omega)))
          · rw [if_neg hc, if_neg hc]
            simp only [List.length_cons] at hk h1 h2
            exact congrArg _ (ih g1 g2 _ (by omega) (by omega) (by omega))

theorem collapseNLF_eq (f : Nat) (cs : List Char) (h : cs.length ≤ f) :
    collapseNLF f cs = collapseNL cs :=
  collapseNLF_irrel f f cs.length cs h h (le_refl _)

theorem collapseNL_nil : collapseNL [] = [] := rfl

theorem collapseNL_nl (rest : List Char) :
    collapseNL ('\n' :: rest) = '\n' :: collapseNL (rest.dropWhile (fun d => d = '\n')) := by
  show collapseNLF ('\n' :: rest).length ('\n' :: rest) = _
  simp only [List.length_cons, collapseNLF, if_pos rfl]
  exact congrArg _ (collapseNLF_eq _ _ (dropWhile_length_le _ _))

theorem collapseNL_other (c : Char) (rest : List Char) (h : c ≠ '\n') :
    collapseNL (c :: rest) = c :: collapseNL rest := by
  show collapseNLF (c :: rest).length (c :: rest) = _
  simp only [List.length_cons, collapseNLF, if_neg h]
  exact congrArg _ (collapseNLF_eq _ _ (le_refl _))

theorem splitSepGo_irrel : ∀ (k f1 f2 : Nat) (cs cur : List Char) (acc : List (List Char)),
    cs.length ≤ k → cs.length ≤ f1 → cs.length ≤ f2 →
    splitSepGo f1 cs cur acc = splitSepGo f2 cs cur acc := by
  intro k
  induction k with
  | zero =>
    intro f1 f2 cs cur acc hk _ _
    have hnil : cs = [] := by cases cs <;> simp_all
    subst hnil
    cases f1 <;> cases f2 <;> rfl
  | succ k ih =>
    intro f1 f2 cs cur acc hk h1 h2
    cases cs with
    | nil => cases f1 <;> cases f2 <;> rfl
    | cons c rest =>
      cases f1 with
      | zero => exact absurd h1 (by simp)
      | succ g1 =>
        cases f2 with
        | zero => exact absurd h2 (by simp)
        | succ g2 =>
          simp only [splitSepGo]
          simp only [List.length_cons] at hk h1 h2
          by_cases hc : c = '\n'
          · rw [if_pos hc, if_pos hc]
            by_cases hw : (rest.takeWhile isJsSpace).contains '\n'
            · rw [if_pos hw, if_pos hw]
              exact ih g1 g2 _ _ _
                (le_trans (by rw [List.length_drop] ; omega) (le_refl rest.length) |>.trans (by omega))
                (le_trans (by rw [List.length_drop] ; omega) (le_refl rest.length) |>.trans (by omega))
                (le_trans (by rw [List.length_drop] ; omega) (le_refl rest.length) |>.trans (by omega))
            · rw [if_neg hw, if_neg hw]
              exact ih g1 g2 _ _ _ (by omega) (by omega) (by omega)
          · rw [if_neg hc, if_neg hc]
            exact ih g1 g2 _ _ _ (by omega) (by omega) (by omega)

theorem splitSepGo_eq (f : Nat) (cs cur : List Char) (acc : List (List Char))
    (h : cs.length ≤ f) : splitSepGo f cs cur acc = splitGo cs cur acc :=
  splitSepGo_irrel f f cs.length cs cur acc h h (le_refl _)

theorem splitGo_nil (cur : List Char) (acc : List (List Char)) :
    splitGo [] cur acc = acc ++ [cur] := rfl

theorem splitGo_other (c : Char) (rest cur : List Char) (acc : List (List Char))
    (h : c ≠ '\n') : splitGo (c :: rest) cur acc = splitGo rest (cur ++ [c]) acc := by
  show splitSepGo (c :: rest).length (c :: rest) cur acc = _
  simp only [List.length_cons, splitSepGo, if_neg h]
  exact splitSepGo_eq _ _ _ _ (le_refl _)

theorem splitGo_nl_nosep (rest cur : List Char) (acc : List (List Char))
    (h : (rest.takeWhile isJsSpace).contains '\n' = false) :
    splitGo ('\n' :: rest) cur acc = splitGo rest (cur ++ ['\n']) acc := by
  have hne : ¬((rest.takeWhile isJsSpace).contains '\n' = true) := by
    rw [h] ; decide
  show splitSepGo ('\n' :: rest).length ('\n' :: rest) cur acc = _
  simp only [List.length_cons, splitSepGo, if_pos rfl]
  rw [if_neg hne]
  exact splitSepGo_eq _ _ _ _ (le_refl _)

theorem splitGo_nl_sep (rest cur : List Char) (acc : List (List Char))
    (h : (rest.takeWhile isJsSpace).contains '\n' = true) :
    splitGo ('\n' :: rest) cur acc =
      splitGo (rest.drop ((rest.takeWhile isJsSpace).length -
        ((rest.takeWhile isJsSpace).reverse.takeWhile (fun d => d != '\n')).length)) []
        (acc ++ [cur]) := by
  show splitSepGo ('\n' :: rest).length ('\n' :: rest) cur acc = _
  simp only [List.length_cons, splitSepGo, if_pos rfl]
  rw [if_pos h]
  exact splitSepGo_eq _ _ _ _ (by simp [List.length_drop])

theorem splitSections_eq_go (cs : List Char) : splitSections cs = splitGo cs [] [] := rfl

theorem splitAtClose_len (cs : List Char) :
    (splitAtClose cs).1.length + (splitAtClose cs).2.length ≤ cs.length := by
  induction cs using splitAtClose.induct with
  | case1 rest => simp [splitAtClose] ; omega
  | case2 c rest h ih => simp_all [splitAtClose] ; omega
  | case3 => simp [splitAtClose]

theorem tagOf_brT_len (rest r2 : List Char) (h : tagOf rest = .brT r2) :
    r2.length ≤ rest.length := by
  unfold tagOf at h
  split at h
  · injection h with h2 ; subst h2 ; simp ; omega
  · exact absurd h (by simp)
  · exact absurd h (by simp)
  · exact absurd h (by simp)
  · exact absurd h (by simp)

theorem tagOf_pT_len (rest after : List Char) (h : tagOf rest = .pT after) :
    after.length ≤ rest.length := by
  unfold tagOf at h
  split at h
  · exact absurd h (by simp)
  · injection h with h2 ; subst h2 ; simp ; omega
  · injection h with h2 ; subst h2 ; simp [List.length_drop] ; omega
  · exact absurd h (by simp)
  · exact absurd h (by simp)

theorem tagOf_closeT_len (rest r2 : List Char) (h : tagOf rest = .closeT r2) :
    r2.length ≤ rest.length := by
  unfold tagOf at h
  split at h
  · exact absurd h (by simp)
  · exact absurd h (by simp)
  · exact absurd h (by simp)
  · injection h with h2 ; subst h2 ; simp ; omega
  · exact absurd h (by simp)

theorem entityOf_len (rest r2 : List Char) (h : entityOf rest = some r2) :
    r2.length ≤ rest.length := by
  unfold entityOf at h
  split at h
  · injection h with h2 ; subst h2 ; simp ; omega
  · exact absurd h (by simp)

theorem chunk_cons (c : Char) (rest : List Char) (hc : c ≠ '<') (ha : c ≠ '&') :
    (c :: rest).takeWhile (fun d => d != '<' && d != '&') =
      c :: rest.takeWhile (fun d => d != '<' && d != '&') := by
  have hb : (c != '<' && c != '&') = true := by simp [hc, ha]
  simp [List.takeWhile, hb]

theorem parseNodesF_irrel : ∀ (k f1 f2 : Nat) (cs : List Char), cs.length ≤ k →
    cs.length ≤ f1 → cs.length ≤ f2 → parseNodesF f1 cs = parseNodesF f2 cs := by
  intro k
  induction k with
  | zero =>
    intro f1 f2 cs hk _ _
    have hnil : cs = [] := by cases cs <;> simp_all
    subst hnil
    cases f1 <;> cases f2 <;> rfl
  | succ k ih =>
    intro f1 f2 cs hk h1 h2
    cases cs with
    | nil => cases f1 <;> cases f2 <;> rfl
    | cons c rest =>
      cases f1 with
      | zero => exact absurd h1 (by simp)
      | succ g1 =>
        cases f2 with
        | zero => exact absurd h2 (by simp)
        | succ g2 =>
          simp only [parseNodesF]
          simp only [List.length_cons] at hk h1 h2
          by_cases hc : c = '<'
          · rw [if_pos hc, if_pos hc]
            cases htag : tagOf rest with
            | brT r2 =>
              have hl := tagOf_brT_len rest r2 htag
              exact congrArg _ (ih g1 g2 r2 (by omega) (by omega) (by omega))
            | pT after =>
              have hl := tagOf_pT_len rest after htag
              have hsp := splitAtClose_len after
              dsimp only
              rw [ih g1 g2 (splitAtClose after).1 (by omega) (by omega) (by omega),
                  ih g1 g2 (splitAtClose after).2 (by omega) (by omega) (by omega)]
            | closeT r2 =>
              have hl := tagOf_closeT_len rest r2 htag
              exact ih g1 g2 r2 (by omega) (by omega) (by omega)
            | otherT =>
              exact congrArg _ (ih g1 g2 rest (by omega) (by omega) (by omega))
          · by_cases ha : c = '&'
            · rw [if_neg hc, if_pos ha, if_neg hc, if_pos ha]
              cases hent : entityOf rest with
              | some r2 =>
                have hl := entityOf_len rest r2 hent
                exact congrArg _ (ih g1 g2 r2 (by omega) (by omega) (by omega))
              | none =>
                exact congrArg _ (ih g1 g2 rest (by omega) (by omega) (by omega))
            · rw [if_neg hc, if_neg ha, if_neg hc, if_neg ha]
              rw [chunk_cons c rest hc ha]
              have hl := takeWhile_length_le (fun d => d != '<' && d != '&') rest
              refine congrArg _ (ih g1 g2 _ ?_ ?_ ?_) <;>
                simp [List.length_drop] <;> omega

theorem parseNodesF_eq (f : Nat) (cs : List Char) (h : cs.length ≤ f) :
    parseNodesF f cs = parseNodes cs :=
  parseNodesF_irrel f f cs.length cs h h (le_refl _)

theorem parseNodes_nil : parseNodes [] = [] := rfl

theorem parseNodes_brT (rest r2 : List Char) (h : tagOf rest = .brT r2) :
    parseNodes ('<' :: rest) = .br :: parseNodes r2 := by
  have hl := tagOf_brT_len rest r2 h
  show parseNodesF ('<' :: rest).length ('<' :: rest) = _
  simp only [List.length_cons, parseNodesF, if_pos rfl, h]
  exact congrArg _ (parseNodesF_eq _ _ (by omega))

theorem parseNodes_pT (rest after : List Char) (h : tagOf rest = .pT after) :
    parseNodes ('<' :: rest) =
      .p (parseNodes (splitAtClose after).1) :: parseNodes (splitAtClose after).2 := by
  have hl := tagOf_pT_len rest after h
  have hsp := splitAtClose_len after
  show parseNodesF ('<' :: rest).length ('<' :: rest) = _
  simp only [List.length_cons, parseNodesF, if_pos rfl, h, if_true]
  rw [parseNodesF_eq _ _ (by omega), parseNodesF_eq _ _ (by omega)]

theorem parseNodes_text (c : Char) (rest : List Char) (hc : c ≠ '<') (ha : c ≠ '&') :
    parseNodes (c :: rest) =
      .text ((c :: rest).takeWhile (fun d => d != '<' && d != '&')) ::
        parseNodes ((c :: rest).drop
          ((c :: rest).takeWhile (fun d => d != '<' && d != '&')).length) := by
  have hl := takeWhile_length_le (fun d => d != '<' && d != '&') rest
  show parseNodesF (c :: rest).length (c :: rest) = _
  simp only [List.length_cons, parseNodesF, if_neg hc, if_neg ha]
  rw [chunk_cons c rest hc ha]
  exact congrArg _ (parseNodesF_eq _ _ (by simp [List.length_drop, chunk_cons c rest hc ha]))

theorem mem_of_mem_dropWhile (p : Char → Bool) (l : List Char) (c : Char)
    (h : c ∈ l.dropWhile p) : c ∈ l := by
  induction l with
  | nil => simp [List.dropWhile] at h
  | cons a rest ih =>
    simp only [List.dropWhile] at h
    by_cases hp : p a
    · simp [hp] at h
      exact List.mem_cons_of_mem a (ih h)
    · simp [hp] at h
      simpa using h

theorem head?_dropWhile (p : Char → Bool) (l : List Char) (c : Char)
    (h : (l.dropWhile p).head? = some c) : p c = false := by
  induction l with
  | nil => simp [List.dropWhile] at h
  | cons a rest ih =>
    simp only [List.dropWhile] at h
    by_cases hp : p a
    · simp [hp] at h
      exact ih h
    · simp [hp] at h
      subst h
      simp [hp]

theorem dropWhile_all (p : Char → Bool) (l : List Char) (h : ∀ c ∈ l, p c) :
    l.dropWhile p = [] := by
  induction l with
  | nil => rfl
  | cons a rest ih =>
    simp only [List.dropWhile]
    rw [h a (by simp)]
    simp only
    exact ih (fun c hc => h c (List.mem_cons_of_mem a hc))

theorem dropWhile_no_head (p : Char → Bool) (a : Char) (l : List Char) (h : p a = false) :
    (a :: l).dropWhile p = a :: l := by
  simp [List.dropWhile, h]

theorem mem_of_mem_jsTrim (cs : List Char) (c : Char) (h : c ∈ jsTrim cs) : c ∈ cs := by
  unfold jsTrim at h
  rw [List.mem_reverse] at h
  have h2 := mem_of_mem_dropWhile _ _ _ h
  rw [List.mem_reverse] at h2
  exact mem_of_mem_dropWhile _ _ _ h2

theorem jsTrim_nil : jsTrim [] = [] := rfl

theorem jsTrim_of_all_space (cs : List Char) (h : ∀ c ∈ cs, isJsSpace c) :
    jsTrim cs = [] := by
  unfold jsTrim
  rw [dropWhile_all _ _ h]
  rfl

theorem getLast?_dropWhile (p : Char → Bool) (l : List Char)
    (h : l.dropWhile p ≠ []) : (l.dropWhile p).getLast? = l.getLast? := by
  induction l with
  | nil => simp [List.dropWhile] at h
  | cons a rest ih =>
    simp only [List.dropWhile] at h ⊢
    by_cases hp : p a
    · simp only [hp] at h ⊢
      rw [ih h]
      have hrest : rest ≠ [] := by
        intro hr ; rw [hr] at h ; simp [List.dropWhile] at h
      cases rest with
      | nil => exact absurd rfl hrest
      | cons b t => rw [List.getLast?_cons_cons]
    · simp [hp]

theorem jsTrim_getLast? (cs : List Char) (c : Char) (h : (jsTrim cs).getLast? = some c) :
    isJsSpace c = false := by
  unfold jsTrim at h
  rw [List.getLast?_reverse] at h
  exact head?_dropWhile _ _ _ h

theorem jsTrim_head? (cs : List Char) (c : Char) (h : (jsTrim cs).head? = some c) :
    isJsSpace c = false := by
  unfold jsTrim at h
  rw [List.head?_reverse] at h
  have hne : (cs.dropWhile isJsSpace).reverse.dropWhile isJsSpace ≠ [] := by
    intro hnil ; rw [hnil] at h ; simp at h
  rw [getLast?_dropWhile _ _ hne, List.getLast?_reverse] at h
  exact head?_dropWhile _ _ _ h

theorem jsTrim_decomp (cs : List Char) : ∃ pre post,
    cs = pre ++ jsTrim cs ++ post ∧ (∀ c ∈ pre, isJsSpace c) ∧ (∀ c ∈ post, isJsSpace c) := by
  refine ⟨cs.takeWhile isJsSpace,
    ((cs.dropWhile isJsSpace).reverse.takeWhile isJsSpace).reverse, ?_, ?_, ?_⟩
  · have hA : cs.dropWhile isJsSpace =
        jsTrim cs ++ ((cs.dropWhile isJsSpace).reverse.takeWhile isJsSpace).reverse := by
      conv_lhs => rw [← List.reverse_reverse (cs.dropWhile isJsSpace),
        ← List.takeWhile_append_dropWhile isJsSpace (cs.dropWhile isJsSpace).reverse]
      rw [List.reverse_append]
      rfl
    conv_lhs => rw [← List.takeWhile_append_dropWhile isJsSpace cs, hA]
    rw [List.append_assoc]
  · intro c hc ; exact List.mem_takeWhile_imp hc
  · intro c hc
    rw [List.mem_reverse] at hc
    exact List.mem_takeWhile_imp hc

theorem jsTrim_eq_nil_iff (cs : List Char) : jsTrim cs = [] ↔ ∀ c ∈ cs, isJsSpace c := by
  constructor
  · intro h c hc
    obtain ⟨pre, post, hdec, hpre, hpost⟩ := jsTrim_decomp cs
    rw [h] at hdec
    rw [hdec] at hc
    simp at hc
    rcases hc with hc | hc
    · exact hpre c hc
    · exact hpost c hc
  · exact jsTrim_of_all_space cs

theorem jsTrim_fix (cs : List Char)
    (h1 : ∀ a, cs.head? = some a → isJsSpace a = false)
    (h2 : ∀ b, cs.getLast? = some b → isJsSpace b = false) :
    jsTrim cs = cs := by
  cases cs with
  | nil => rfl
  | cons c t =>
    unfold jsTrim
    rw [dropWhile_no_head _ _ _ (h1 c rfl)]
    rcases hrev : (c :: t).reverse with _ | ⟨b, rt⟩
    · simp at hrev
    · have hb : (c :: t).getLast? = some b := by
        rw [← List.head?_reverse, hrev] ; rfl
      rw [dropWhile_no_head _ _ _ (h2 b hb), ← hrev, List.reverse_reverse]

theorem jsTrim_idem (cs : List Char) : jsTrim (jsTrim cs) = jsTrim cs := by
  rcases hn : jsTrim cs with _ | ⟨a, t⟩
  · rfl
  · rw [← hn]
    exact jsTrim_fix _
      (fun a ha => jsTrim_head? cs a ha)
      (fun b hb => jsTrim_getLast? cs b hb)

theorem hasNN_iff (cs : List Char) :
    hasNN cs = true ↔ ∃ l r, cs = l ++ '\n' :: '\n' :: r := by
  induction cs with
  | nil => simp [hasNN]
  | cons a rest ih =>
    cases rest with
    | nil =>
      simp only [hasNN]
      constructor
      · intro h ; exact absurd h (by simp)
      · rintro ⟨l, r, hlr⟩
        cases l <;> simp_all
    | cons b t =>
      simp only [hasNN]
      constructor
      · intro h
        rcases Bool.or_eq_true_iff.mp h with h1 | h2
        · have ha : a = '\n' := by
            have := Bool.and_eq_true_iff.mp h1
            simpa using this.1
          have hb : b = '\n' := by
            have := Bool.and_eq_true_iff.mp h1
            simpa using this.2
          exact ⟨[], t, by rw [ha, hb] ; rfl⟩
        · obtain ⟨l, r, hlr⟩ := ih.mp h2
          exact ⟨a :: l, r, by rw [List.cons_append, ← hlr]⟩
      · rintro ⟨l, r, hlr⟩
        cases l with
        | nil =>
          simp at hlr
          apply Bool.or_eq_true_iff.mpr
          left
          simp [hlr.1, hlr.2.1]
        | cons x xs =>
          simp at hlr
          apply Bool.or_eq_true_iff.mpr
          right
          exact ih.mpr ⟨xs, r, hlr.2⟩

theorem hasNN_of_infix (mid l r cs : List Char) (h : cs = l ++ mid ++ r)
    (hm : hasNN mid = true) : hasNN cs = true := by
  obtain ⟨l2, r2, hlr⟩ := (hasNN_iff mid).mp hm
  exact (hasNN_iff cs).mpr ⟨l ++ l2, r2 ++ r, by
    rw [h, hlr] ; simp⟩

theorem collapseNL_head? (cs : List Char) : (collapseNL cs).head? = cs.head? := by
  cases cs with
  | nil => rfl
  | cons c rest =>
    by_cases hc : c = '\n'
    · subst hc ; rw [collapseNL_nl] ; rfl
    · rw [collapseNL_other c rest hc] ; rfl

theorem hasNN_collapseNL : ∀ (k : Nat) (cs : List Char), cs.length ≤ k →
    hasNN (collapseNL cs) = false := by
  intro k
  induction k with
  | zero =>
    intro cs hk
    have hnil : cs = [] := by cases cs <;> simp_all
    subst hnil ; rfl
  | succ k ih =>
    intro cs hk
    cases cs with
    | nil => rfl
    | cons c rest =>
      simp only [List.length_cons] at hk
      by_cases hc : c = '\n'
      · subst hc
        rw [collapseNL_nl]
        rcases hX : collapseNL (rest.dropWhile (fun d => d = '\n')) with _ | ⟨d, t⟩
        · rfl
        · have hd : d ≠ '\n' := by
            have h1 : (collapseNL (rest.dropWhile (fun d => d = '\n'))).head? = some d := by
              rw [hX] ; rfl
            rw [collapseNL_head? _] at h1
            have := head?_dropWhile (fun d => d = '\n') rest d h1
            simpa using this
          simp only [hasNN]
          rw [← hX]
          have hlen := dropWhile_length_le (fun d => d = '\n') rest
          rw [ih _ (by omega)]
          simp [hd]
      · rw [collapseNL_other c rest hc]
        rcases hX : collapseNL rest with _ | ⟨d, t⟩
        · rfl
        · simp only [hasNN]
          rw [← hX, ih _ (by omega)]
          simp [hc]

theorem mem_collapseNL : ∀ (k : Nat) (cs : List Char) (c : Char), cs.length ≤ k →
    c ∈ collapseNL cs → c ∈ cs := by
  intro k
  induction k with
  | zero =>
    intro cs c hk
    have hnil : cs = [] := by cases cs <;> simp_all
    subst hnil ; simp [collapseNL_nil]
  | succ k ih =>
    intro cs c hk hmem
    cases cs with
    | nil => simp [collapseNL_nil] at hmem
    | cons a rest =>
      simp only [List.length_cons] at hk
      by_cases ha : a = '\n'
      · subst ha
        rw [collapseNL_nl] at hmem
        rcases List.mem_cons.mp hmem with h | h
        · simp [h]
        · have hlen := dropWhile_length_le (fun d => d = '\n') rest
          have := ih _ c (by omega) h
          exact List.mem_cons_of_mem _ (mem_of_mem_dropWhile _ _ _ this)
      · rw [collapseNL_other a rest ha] at hmem
        rcases List.mem_cons.mp hmem with h | h
        · simp [h]
        · exact List.mem_cons_of_mem _ (ih _ c (by omega) h)

theorem cleanupText_hasNN (x : List Char) : hasNN (cleanupText x) = false := by
  unfold cleanupText
  set Z := collapseNL (x.map (fun c => if c = '\u00A0' then ' ' else c)) with hZ
  by_contra hcon
  simp only [Bool.not_eq_false] at hcon
  obtain ⟨pre, post, hdec, _, _⟩ := jsTrim_decomp Z
  have : hasNN Z = true := hasNN_of_infix (jsTrim Z) pre post Z hdec hcon
  rw [hZ] at this
  rw [hasNN_collapseNL _ _ (le_refl _)] at this
  exact Bool.false_ne_true this

theorem cleanupText_no_nbsp (x : List Char) : '\u00A0' ∉ cleanupText x := by
  intro hmem
  unfold cleanupText at hmem
  have h1 := mem_of_mem_jsTrim _ _ hmem
  have h2 := mem_collapseNL _ _ _ (le_refl _) h1
  rcases List.mem_map.mp h2 with ⟨a, _, ha⟩
  by_cases hna : a = '\u00A0'
  · rw [if_pos hna] at ha
    exact absurd ha (by decide)
  · rw [if_neg hna] at ha
    exact hna ha

theorem cleanupText_trimmed (x : List Char) : jsTrim (cleanupText x) = cleanupText x :=
  jsTrim_idem _

/-- C2: for every input, the string returned by `htmlToText` contains no
two consecutive newline characters, contains no non-breaking space, and
has no leading or trailing whitespace (it is a fixed point of
JavaScript's `trim`). -/
theorem claim_C2_htmlToText_output_invariant (arg : JsStringArg) :
    (¬ ∃ l r, (htmlToTextJs arg).data = l ++ '\n' :: '\n' :: r) ∧
    '\u00A0' ∉ (htmlToTextJs arg).data ∧
    jsTrim (htmlToTextJs arg).data = (htmlToTextJs arg).data := by
  have hempty : (¬ ∃ l r, ("" : String).data = l ++ '\n' :: '\n' :: r) ∧
      '\u00A0' ∉ ("" : String).data ∧
      jsTrim ("" : String).data = ("" : String).data := by
    refine ⟨?_, by simp, rfl⟩
    rintro ⟨l, r, h⟩
    have h2 := congrArg List.length h
    simp at h2
    omega
  cases arg with
  | undef => exact hempty
  | null => exact hempty
  | str s =>
    show (¬ ∃ l r, (htmlToText s).data = l ++ '\n' :: '\n' :: r) ∧
      '\u00A0' ∉ (htmlToText s).data ∧
      jsTrim (htmlToText s).data = (htmlToText s).data
    by_cases hs : s = ""
    · rw [hs]
      exact hempty
    · unfold htmlToText
      rw [if_neg hs]
      refine ⟨?_, cleanupText_no_nbsp _, cleanupText_trimmed _⟩
      rintro ⟨l, r, h⟩
      have hX : hasNN (cleanupText (textContentL (removeEmptyParagraphsL
          (insertAfterPsL (replaceBrL (parseNodes s.data)))))) = true :=
        (hasNN_iff _).mpr ⟨l, r, h⟩
      rw [cleanupText_hasNN] at hX
      exact Bool.false_ne_true hX

theorem splitGo_chars : ∀ (k : Nat) (cs cur : List Char) (acc : List (List Char))
    (sec : List Char) (c : Char), cs.length ≤ k → sec ∈ splitGo cs cur acc → c ∈ sec →
    c ∈ cur ∨ c ∈ cs ∨ (∃ a ∈ acc, c ∈ a) := by
  intro k
  induction k with
  | zero =>
    intro cs cur acc sec c hk hsec hc
    have hnil : cs = [] := by cases cs <;> simp_all
    subst hnil
    rw [splitGo_nil] at hsec
    rcases List.mem_append.mp hsec with h | h
    · exact Or.inr (Or.inr ⟨sec, h, hc⟩)
    · simp at h ; subst h ; exact Or.inl hc
  | succ k ih =>
    intro cs cur acc sec c hk hsec hc
    cases cs with
    | nil =>
      rw [splitGo_nil] at hsec
      rcases List.mem_append.mp hsec with h | h
      · exact Or.inr (Or.inr ⟨sec, h, hc⟩)
      · simp at h ; subst h ; exact Or.inl hc
    | cons a rest =>
      simp only [List.length_cons] at hk
      by_cases ha : a = '\n'
      · subst ha
        by_cases hw : (rest.takeWhile isJsSpace).contains '\n'
        · rw [splitGo_nl_sep rest cur acc hw] at hsec
          rcases ih _ _ _ _ c (by rw [List.length_drop] ; omega)
              hsec hc with h | h | ⟨x, hx, hcx⟩
          · simp at h
          · exact Or.inr (Or.inl (List.mem_cons_of_mem _ (List.mem_of_mem_drop h)))
          · rcases List.mem_append.mp hx with h2 | h2
            · exact Or.inr (Or.inr ⟨x, h2, hcx⟩)
            · simp at h2 ; subst h2 ; exact Or.inl hcx
        · rw [splitGo_nl_nosep rest cur acc (by simpa using hw)] at hsec
          rcases ih _ _ _ _ c (by omega) hsec hc with h | h | h
          · rcases List.mem_append.mp h with h2 | h2
            · exact Or.inl h2
            · simp at h2 ; subst h2 ; exact Or.inr (Or.inl (by simp))
          · exact Or.inr (Or.inl (List.mem_cons_of_mem _ h))
          · exact Or.inr (Or.inr h)
      · rw [splitGo_other a rest cur acc ha] at hsec
        rcases ih _ _ _ _ c (by omega) hsec hc with h | h | h
        · rcases List.mem_append.mp h with h2 | h2
          · exact Or.inl h2
          · simp at h2 ; subst h2 ; exact Or.inr (Or.inl (by simp))
        · exact Or.inr (Or.inl (List.mem_cons_of_mem _ h))
        · exact Or.inr (Or.inr h)

theorem splitSections_chars (cs sec : List Char) (c : Char)
    (hsec : sec ∈ splitSections cs) (hc : c ∈ sec) : c ∈ cs := by
  rw [splitSections_eq_go] at hsec
  rcases splitGo_chars cs.length cs [] [] sec c (le_refl _) hsec hc with h | h | ⟨x, hx, _⟩
  · simp at h
  · exact h
  · simp at hx

theorem textToCardHTMLs_all_space (s : String) (hne : s ≠ "")
    (h : ∀ c ∈ s.data, isJsSpace c) : textToCardHTMLs s = .arr [] := by
  unfold textToCardHTMLs
  rw [if_neg hne]
  congr 1
  rw [show (((splitSections s.data).map jsTrim).filter (fun sec => !sec.isEmpty)) = [] from ?_]
  · rfl
  · rw [List.filter_eq_nil_iff]
    intro a hmem
    rcases List.mem_map.mp hmem with ⟨sec, hsec, htrim⟩
    have hall : ∀ c ∈ sec, isJsSpace c := fun c hc => h c (splitSections_chars _ _ _ hsec hc)
    rw [← htrim, jsTrim_of_all_space sec hall]
    simp

/-- C8: `htmlToText` returns the empty string for empty, `null` and
`undefined` input, raising no error (the function is total). -/
theorem claim_C8_htmlToText_empty_inputs :
    htmlToTextJs .undef = "" ∧ htmlToTextJs .null = "" ∧ htmlToTextJs (.str "") = "" :=
  ⟨rfl, rfl, by decide⟩

/-- C6: a paragraph whose trimmed text content is empty or a single
non-breaking space is removed (`htmlToText '<p>&nbsp;</p><p>Content</p>'
= 'Content'`), and the removal happens only after the sibling-based
newline-insertion step: in `'A<p>&nbsp;</p>B'` the empty paragraph still
contributes the separating newline decided from its sibling `B`, so the
result is `'A\nB'` rather than `'AB'`. -/
theorem claim_C6_empty_paragraph_pruning :
    htmlToText "<p>&nbsp;</p><p>Content</p>" = "Content" ∧
    htmlToText "A<p>&nbsp;</p>B" = "A\nB" ∧
    (∀ ch rest, (jsTrim (textContentL ch) = [] ∨ jsTrim (textContentL ch) = ['\u00A0']) →
      removeEmptyParagraphsL (.p ch :: rest) = removeEmptyParagraphsL rest) := by
  refine ⟨by decide, by decide, ?_⟩
  intro ch rest hg
  rw [removeEmptyParagraphsL_p, if_pos hg]

/-- Witness for C6: the removal clause applied to a concrete empty
paragraph. -/
theorem claim_C6_witness :
    removeEmptyParagraphsL [.p [.text ['\u00A0']], .p [.text ['C']]] =
      removeEmptyParagraphsL [.p [.text ['C']]] :=
  claim_C6_empty_paragraph_pruning.2.2 [.text ['\u00A0']] [.p [.text ['C']]]
    (Or.inl (by decide))

/-- C3: no fragment produced by `textToCardHTMLs` is empty or
whitespace-only: every fragment starts with the wrapper `<p …>`, so it
is non-empty and survives trimming. -/
theorem claim_C3_no_empty_fragments (arg : JsStringArg) (frags : List String) (f : String)
    (harr : textToCardHTMLsJs arg = .arr frags) (hf : f ∈ frags) :
    f ≠ "" ∧ jsTrim f.data ≠ [] := by
  cases arg with
  | undef => simp [textToCardHTMLsJs] at harr
  | null => simp [textToCardHTMLsJs] at harr
  | str s =>
    simp only [textToCardHTMLsJs] at harr
    unfold textToCardHTMLs at harr
    by_cases hs : s = ""
    · rw [if_pos hs] at harr
      simp at harr
    · rw [if_neg hs] at harr
      injection harr with harr
      subst harr
      rcases List.mem_map.mp hf with ⟨sec, _, hfeq⟩
      subst hfeq
      have hlt : '<' ∈ (String.mk (cardHTMLOfSection sec)).data := by
        show '<' ∈ cardHTMLOfSection sec
        unfold cardHTMLOfSection
        exact List.mem_append.mpr (Or.inl (List.mem_append.mpr (Or.inl (by decide))))
      constructor
      · intro hcon
        rw [hcon] at hlt
        simp at hlt
      · intro hcon
        have := (jsTrim_eq_nil_iff _).mp hcon '<' hlt
        exact absurd this (by decide)

/-- Witness for C3: the fragment produced from the input `"x"`. -/
theorem claim_C3_witness :
    ("<p style=\"text-align:center;\">x</p>" : String) ≠ "" ∧
      jsTrim ("<p style=\"text-align:center;\">x</p>" : String).data ≠ [] :=
  claim_C3_no_empty_fragments (.str "x") ["<p style=\"text-align:center;\">x</p>"]
    "<p style=\"text-align:center;\">x</p>" (by decide) (by decide)

/-- C9: `textToCardHTMLs` yields an empty result (zero fragments) for
empty or absent input (the `''` sentinel) and for whitespace-only input
(an empty array). -/
theorem claim_C9_textToCardHTMLs_empty_inputs :
    textToCardHTMLsJs .undef = .str "" ∧ textToCardHTMLsJs .null = .str "" ∧
    textToCardHTMLs "" = .str "" ∧ textToCardHTMLs "   \n\n   " = .arr [] ∧
    (∀ s : String, s ≠ "" → (∀ c ∈ s.data, isJsSpace c) → textToCardHTMLs s = .arr []) :=
  ⟨rfl, rfl, by decide, by decide, textToCardHTMLs_all_space⟩

/-- Witness for C9: a whitespace-only input produces the empty array. -/
theorem claim_C9_witness : textToCardHTMLs " " = .arr [] :=
  claim_C9_textToCardHTMLs_empty_inputs.2.2.2.2 " " (by decide) (by decide)

/-- C10: the two empty results differ by input type: falsy input (empty
string, `null`, `undefined`) yields the string sentinel `''`, while a
non-empty input whose paragraphs all trim away yields an empty array —
two values of different shapes at the empty/whitespace boundary. -/
theorem claim_C10_result_type_boundary :
    textToCardHTMLsJs .undef = .str "" ∧ textToCardHTMLsJs .null = .str "" ∧
    textToCardHTMLs "" = .str "" ∧
    (∀ s : String, s ≠ "" → (∀ c ∈ s.data, isJsSpace c) → textToCardHTMLs s = .arr []) ∧
    (∀ a : List String, TextToCardResult.str "" ≠ TextToCardResult.arr a) := by
  refine ⟨rfl, rfl, by decide, textToCardHTMLs_all_space, ?_⟩
  intro a hcon
  exact TextToCardResult.noConfusion hcon

/-- Witness for C10: the boundary pair — `''` versus a whitespace-only
string one character longer. -/
theorem claim_C10_witness : textToCardHTMLs "\t" = .arr [] :=
  claim_C10_result_type_boundary.2.2.2.1 "\t" (by decide) (by decide)

theorem splitOnNL_ne_nil (cs : List Char) : splitOnNL cs ≠ [] := by
  cases cs with
  | nil => simp [splitOnNL]
  | cons c rest =>
    simp only [splitOnNL]
    by_cases hc : c = '\n'
    · simp [hc]
    · rw [if_neg hc]
      rcases h : splitOnNL rest with _ | ⟨l, ls⟩ <;> simp

theorem exists_line_of_mem (cs : List Char) (c : Char) (hc : c ∈ cs) (hnl : c ≠ '\n') :
    ∃ line ∈ splitOnNL cs, c ∈ line := by
  induction cs with
  | nil => simp at hc
  | cons a rest ih =>
    by_cases ha : a = '\n'
    · subst ha
      rcases List.mem_cons.mp hc with h | h
      · exact absurd h hnl
      · obtain ⟨line, hline, hcl⟩ := ih h
        exact ⟨line, by simp only [splitOnNL, if_pos rfl] ; exact List.mem_cons_of_mem _ hline, hcl⟩
    · rcases hsp : splitOnNL rest with _ | ⟨l, ls⟩
      · exact absurd hsp (splitOnNL_ne_nil rest)
      · have hstep : splitOnNL (a :: rest) = (a :: l) :: ls := by
          simp only [splitOnNL, if_neg ha, hsp]
        rcases List.mem_cons.mp hc with h | h
        · exact ⟨a :: l, by rw [hstep] ; simp, by simp [h]⟩
        · obtain ⟨line, hline, hcl⟩ := ih h
          rw [hsp] at hline
          rcases List.mem_cons.mp hline with h2 | h2
          · exact ⟨a :: l, by rw [hstep] ; simp, by rw [h2] at hcl ; exact List.mem_cons_of_mem _ hcl⟩
          · exact ⟨line, by rw [hstep] ; exact List.mem_cons_of_mem _ h2, hcl⟩

theorem mem_cleanedLines (sec l : List Char) (h : l ∈ cleanedLines sec) :
    l ≠ [] ∧ jsTrim l = l := by
  unfold cleanedLines at h
  have h2 := List.of_mem_filter h
  have h3 := List.mem_of_mem_filter h
  rcases List.mem_map.mp h3 with ⟨line, _, hline⟩
  constructor
  · intro hcon ; rw [hcon] at h2 ; simp at h2
  · rw [← hline] ; exact jsTrim_idem line

theorem cleanedLines_ne_nil (sec : List Char) (c : Char) (hc : c ∈ sec)
    (hsp : isJsSpace c = false) : cleanedLines sec ≠ [] := by
  have hnl : c ≠ '\n' := by
    intro hcon ; subst hcon ; exact absurd hsp (by decide)
  obtain ⟨line, hline, hcl⟩ := exists_line_of_mem sec c hc hnl
  have htr : jsTrim line ≠ [] := by
    intro hcon
    have h4 := (jsTrim_eq_nil_iff line).mp hcon c hcl
    rw [h4] at hsp
    simp at hsp
  intro hcon
  have : jsTrim line ∈ cleanedLines sec := by
    unfold cleanedLines
    apply List.mem_filter.mpr
    exact ⟨List.mem_map.mpr ⟨line, hline, rfl⟩, by simpa using htr⟩
  rw [hcon] at this
  simp at this

/-- C4: every fragment emitted by `textToCardHTMLs` is exactly the
centered-paragraph wrapper `<p style="text-align:center;">…</p>` around
the surviving trimmed lines of its (trimmed, non-empty) section, joined
by `<br>`; in particular `'A\n\nB\nC'` yields exactly the two fragments
`<p style="text-align:center;">A</p>` and
`<p style="text-align:center;">B<br>C</p>`. -/
theorem claim_C4_fragment_format :
    (∀ (s : String) (frags : List String) (f : String),
      textToCardHTMLs s = .arr frags → f ∈ frags →
      ∃ sec, sec ∈ (splitSections s.data).map jsTrim ∧ sec ≠ [] ∧
        f.data = pOpen ++ joinSep "<br>".data (cleanedLines sec) ++ pClose ∧
        cleanedLines sec ≠ [] ∧ (∀ l ∈ cleanedLines sec, l ≠ [] ∧ jsTrim l = l)) ∧
    textToCardHTMLs "A\n\nB\nC" =
      .arr ["<p style=\"text-align:center;\">A</p>",
        "<p style=\"text-align:center;\">B<br>C</p>"] := by
  refine ⟨?_, by decide⟩
  intro s frags f harr hf
  unfold textToCardHTMLs at harr
  by_cases hs : s = ""
  · rw [if_pos hs] at harr
    simp at harr
  · rw [if_neg hs] at harr
    injection harr with harr
    subst harr
    rcases List.mem_map.mp hf with ⟨sec, hsec, hfeq⟩
    have hsec2 := List.mem_of_mem_filter hsec
    have hne := List.of_mem_filter hsec
    have hnonnil : sec ≠ [] := by
      intro hcon ; rw [hcon] at hne ; simp at hne
    have hhead : ∃ c ∈ sec, isJsSpace c = false := by
      rcases hn : sec with _ | ⟨a, t⟩
      · exact absurd hn hnonnil
      · refine ⟨a, by simp, ?_⟩
        rcases List.mem_map.mp hsec2 with ⟨sec0, _, htrim⟩
        apply jsTrim_head? sec0
        rw [htrim, hn] ; rfl
    obtain ⟨c, hc, hcsp⟩ := hhead
    refine ⟨sec, hsec2, hnonnil, ?_, cleanedLines_ne_nil sec c hc hcsp, fun l hl => mem_cleanedLines sec l hl⟩
    rw [← hfeq]
    rfl

/-- Witness for C4: the wrapper clause applied to the first fragment of
`'A\n\nB\nC'`. -/
theorem claim_C4_witness :
    ∃ sec, sec ∈ (splitSections ("A\n\nB\nC" : String).data).map jsTrim ∧ sec ≠ [] ∧
      ("<p style=\"text-align:center;\">A</p>" : String).data =
        pOpen ++ joinSep "<br>".data (cleanedLines sec) ++ pClose ∧
      cleanedLines sec ≠ [] ∧ (∀ l ∈ cleanedLines sec, l ≠ [] ∧ jsTrim l = l) :=
  claim_C4_fragment_format.1 "A\n\nB\nC"
    ["<p style=\"text-align:center;\">A</p>", "<p style=\"text-align:center;\">B<br>C</p>"]
    "<p style=\"text-align:center;\">A</p>" (by decide) (by decide)

theorem takeWhile_append_of_exists (l t : List Char)
    (h : ∃ c ∈ l, isJsSpace c = false) :
    (l ++ t).takeWhile isJsSpace = l.takeWhile isJsSpace := by
  induction l with
  | nil => obtain ⟨c, hc, _⟩ := h ; simp at hc
  | cons a l' ih =>
    by_cases ha : isJsSpace a
    · obtain ⟨c, hc, hcsp⟩ := h
      have hcl : c ∈ l' := by
        rcases List.mem_cons.mp hc with h2 | h2
        · subst h2 ; rw [ha] at hcsp ; simp at hcsp
        · exact h2
      simp only [List.cons_append, List.takeWhile]
      rw [ha]
      simp only [List.append_eq]
      rw [ih ⟨c, hcl, hcsp⟩]
    · simp only [List.cons_append, List.takeWhile]
      rw [Bool.not_eq_true] at ha
      rw [ha]

theorem splitGo_through (p : List Char) :
    ∀ (tail cur : List Char) (acc : List (List Char)),
    hasSep p = false →
    (∀ b, p.getLast? = some b → isJsSpace b = false) →
    splitGo (p ++ tail) cur acc = splitGo tail (cur ++ p) acc := by
  induction p with
  | nil => intro tail cur acc _ _ ; simp
  | cons a p' ih =>
    intro tail cur acc hsep hlast
    have hsep2 : hasSep p' = false := by
      unfold hasSep at hsep
      rcases Bool.or_eq_false_iff.mp hsep with ⟨_, h2⟩
      exact h2
    by_cases ha : a = '\n'
    · subst ha
      have hp' : p' ≠ [] := by
        intro hcon
        subst hcon
        have := hlast '\n' rfl
        exact absurd this (by decide)
      have hlast' : ∀ b, p'.getLast? = some b → isJsSpace b = false := by
        intro b hb
        apply hlast
        rcases hn : p' with _ | ⟨x, t⟩
        · exact absurd hn hp'
        · rw [List.getLast?_cons_cons, ← hn] ; exact hb
      have hbmem : ∃ c ∈ p', isJsSpace c = false := by
        rcases hn : p' with _ | ⟨x, t⟩
        · exact absurd hn hp'
        · subst hn
          have hfoo : (x :: t).getLast? = some ((x :: t).getLast (by simp)) :=
            List.getLast?_eq_getLast _ _
          exact ⟨(x :: t).getLast (by simp), List.getLast_mem _, hlast' _ hfoo⟩
      have hnw : ((p' ++ tail).takeWhile isJsSpace).contains '\n' = false := by
        rw [takeWhile_append_of_exists p' tail hbmem]
        unfold hasSep at hsep
        rcases Bool.or_eq_false_iff.mp hsep with ⟨h1, _⟩
        simpa using Bool.and_eq_false_iff.mp h1
      rw [List.cons_append, splitGo_nl_nosep _ _ _ hnw, ih tail (cur ++ ['\n']) acc hsep2 hlast']
      simp
    · have hlast' : ∀ b, p'.getLast? = some b → isJsSpace b = false := by
        intro b hb
        apply hlast
        rcases hn : p' with _ | ⟨x, t⟩
        · rw [hn] at hb ; simp at hb
        · rw [List.getLast?_cons_cons, ← hn] ; exact hb
      rw [List.cons_append, splitGo_other _ _ _ _ ha, ih tail (cur ++ [a]) acc hsep2 hlast']
      simp

theorem splitGo_sep_step (tail cur : List Char) (acc : List (List Char))
    (h : ∀ a, tail.head? = some a → isJsSpace a = false) :
    splitGo ('\n' :: '\n' :: tail) cur acc = splitGo tail [] (acc ++ [cur]) := by
  have hw : ('\n' :: tail).takeWhile isJsSpace = ['\n'] := by
    cases tail with
    | nil => rfl
    | cons a t =>
      have ha := h a rfl
      simp only [List.takeWhile]
      rw [show isJsSpace '\n' = true from rfl]
      simp only
      rw [ha]
  have hcont : (('\n' :: tail).takeWhile isJsSpace).contains '\n' = true := by
    rw [hw] ; rfl
  rw [splitGo_nl_sep ('\n' :: tail) cur acc hcont, hw]
  simp [List.takeWhile]

theorem joinSep_head? (sep : List Char) (q : List Char) (qs : List (List Char))
    (hq : q ≠ []) : (joinSep sep (q :: qs)).head? = q.head? := by
  cases qs with
  | nil => rfl
  | cons q2 qs' =>
    have h1 : joinSep sep (q :: q2 :: qs') = q ++ (sep ++ joinSep sep (q2 :: qs')) := by
      show q ++ sep ++ joinSep sep (q2 :: qs') = _
      rw [List.append_assoc]
    rw [h1]
    cases q with
    | nil => exact absurd rfl hq
    | cons a t => rfl

theorem splitGo_joinSep : ∀ (ps : List (List Char)) (acc : List (List Char)),
    ps ≠ [] → (∀ p ∈ ps, p ≠ [] ∧ jsTrim p = p ∧ hasSep p = false) →
    splitGo (joinSep ['\n', '\n'] ps) [] acc = acc ++ ps := by
  intro ps
  induction ps with
  | nil => intro acc h _ ; exact absurd rfl h
  | cons p ps' ih =>
    intro acc _ hp
    obtain ⟨hpne, hptrim, hpsep⟩ := hp p (by simp)
    have hlast : ∀ b, p.getLast? = some b → isJsSpace b = false := by
      intro b hb
      apply jsTrim_getLast? p
      rw [hptrim] ; exact hb
    cases ps' with
    | nil =>
      show splitGo (joinSep ['\n', '\n'] [p]) [] acc = acc ++ [p]
      have : joinSep ['\n', '\n'] [p] = p ++ [] := by simp [joinSep]
      rw [this, splitGo_through p [] [] acc hpsep hlast]
      rfl
    | cons q qs =>
      obtain ⟨hqne, hqtrim, _⟩ := hp q (by simp)
      have hjoin : joinSep ['\n', '\n'] (p :: q :: qs) =
          p ++ ('\n' :: '\n' :: joinSep ['\n', '\n'] (q :: qs)) := by
        show p ++ ['\n', '\n'] ++ joinSep ['\n', '\n'] (q :: qs) = _
        rw [List.append_assoc]
        rfl
      rw [hjoin, splitGo_through p _ [] acc hpsep hlast]
      show splitGo ('\n' :: '\n' :: joinSep ['\n', '\n'] (q :: qs)) p acc = _
      rw [splitGo_sep_step _ p acc ?hhead]
      case hhead =>
        intro a ha
        rw [joinSep_head? _ q qs hqne] at ha
        apply jsTrim_head? q
        rw [hqtrim] ; exact ha
      rw [ih (acc ++ [p]) (by simp) (fun r hr => hp r (List.mem_cons_of_mem _ hr))]
      simp

theorem joinSep_ne_nil (sep q : List Char) (qs : List (List Char)) (hq : q ≠ []) :
    joinSep sep (q :: qs) ≠ [] := by
  cases qs with
  | nil => exact hq
  | cons q2 qs' =>
    show q ++ sep ++ joinSep sep (q2 :: qs') ≠ []
    simp only [ne_eq, List.append_eq_nil]
    intro h
    exact hq h.1.1

theorem map_jsTrim_id (ps : List (List Char)) (h : ∀ p ∈ ps, jsTrim p = p) :
    ps.map jsTrim = ps := by
  induction ps with
  | nil => rfl
  | cons p ps' ih =>
    simp only [List.map]
    rw [h p (by simp), ih (fun r hr => h r (List.mem_cons_of_mem _ hr))]

/-- C7: for an input text consisting of `n` paragraphs (each non-empty,
trimmed and containing no blank-line separator) joined by blank lines,
`textToCardHTMLs` returns exactly `n` fragments, one per paragraph, in
the original order: the result is literally the map of the fragment
constructor over the paragraph list. -/
theorem claim_C7_paragraph_count_order (ps : List (List Char)) (hne : ps ≠ [])
    (hp : ∀ p ∈ ps, p ≠ [] ∧ jsTrim p = p ∧ hasSep p = false) :
    textToCardHTMLs (String.mk (joinSep ['\n', '\n'] ps)) =
      .arr (ps.map (fun p => String.mk (cardHTMLOfSection p))) := by
  have hjoin_ne : joinSep ['\n', '\n'] ps ≠ [] := by
    cases ps with
    | nil => exact absurd rfl hne
    | cons p ps' => exact joinSep_ne_nil _ p ps' (hp p (by simp)).1
  have hsne : String.mk (joinSep ['\n', '\n'] ps) ≠ "" := by
    intro h
    exact hjoin_ne (congrArg String.data h)
  unfold textToCardHTMLs
  rw [if_neg hsne]
  congr 1
  have hdata : (String.mk (joinSep ['\n', '\n'] ps)).data = joinSep ['\n', '\n'] ps := rfl
  rw [hdata, splitSections_eq_go, splitGo_joinSep ps [] hne hp, List.nil_append,
    map_jsTrim_id ps (fun p hp2 => (hp p hp2).2.1)]
  rw [List.filter_eq_self.mpr (fun p hp2 => by
    simp only [Bool.not_eq_eq_eq_not, Bool.not_false]
    simpa using (hp p hp2).1)]

/-- Witness for C7: two concrete paragraphs. -/
theorem claim_C7_witness :
    textToCardHTMLs (String.mk (joinSep ['\n', '\n'] [['A'], ['B']])) =
      .arr ([['A'], ['B']].map (fun p => String.mk (cardHTMLOfSection p))) :=
  claim_C7_paragraph_count_order [['A'], ['B']] (by decide) (by decide)

theorem map_id_of_mem (f : Char → Char) (l : List Char) (h : ∀ c ∈ l, f c = c) :
    l.map f = l := by
  induction l with
  | nil => rfl
  | cons a t ih =>
    simp only [List.map]
    rw [h a (by simp), ih (fun c hc => h c (List.mem_cons_of_mem _ hc))]

theorem joinSep_chars (sep : List Char) (ts : List (List Char)) (c : Char)
    (h : c ∈ joinSep sep ts) : (∃ t ∈ ts, c ∈ t) ∨ c ∈ sep := by
  induction ts with
  | nil => simp [joinSep] at h
  | cons t ts' ih =>
    cases ts' with
    | nil =>
      exact Or.inl ⟨t, by simp, h⟩
    | cons t2 ts'' =>
      have hj : joinSep sep (t :: t2 :: ts'') = t ++ (sep ++ joinSep sep (t2 :: ts'')) := by
        show t ++ sep ++ joinSep sep (t2 :: ts'') = _
        rw [List.append_assoc]
      rw [hj] at h
      rcases List.mem_append.mp h with h2 | h2
      · exact Or.inl ⟨t, by simp, h2⟩
      · rcases List.mem_append.mp h2 with h3 | h3
        · exact Or.inr h3
        · rcases ih h3 with ⟨t', ht', hct'⟩ | h4
          · exact Or.inl ⟨t', List.mem_cons_of_mem _ ht', hct'⟩
          · exact Or.inr h4

theorem dropWhile_head?_no (p : Char → Bool) (cs : List Char) (a : Char)
    (h : cs.head? = some a) (hp : p a = false) : cs.dropWhile p = cs := by
  cases cs with
  | nil => rfl
  | cons x t =>
    injection h with h
    subst h
    exact dropWhile_no_head _ _ _ hp

theorem collapseNL_through (x : List Char) (hx : '\n' ∉ x) :
    ∀ y, collapseNL (x ++ y) = x ++ collapseNL y := by
  induction x with
  | nil => intro y ; rfl
  | cons a t ih =>
    intro y
    have ha : a ≠ '\n' := by
      intro hcon ; subst hcon ; exact hx (by simp)
    rw [List.cons_append, collapseNL_other a _ ha,
      ih (fun hc => hx (List.mem_cons_of_mem _ hc)) y]
    rfl

theorem collapseNL_joinSep (ts : List (List Char))
    (h : ∀ t ∈ ts, t ≠ [] ∧ '\n' ∉ t) :
    collapseNL (joinSep ['\n'] ts) = joinSep ['\n'] ts := by
  induction ts with
  | nil => rfl
  | cons t ts' ih =>
    obtain ⟨htne, htnl⟩ := h t (by simp)
    cases ts' with
    | nil =>
      show collapseNL t = t
      have h2 : collapseNL (t ++ []) = t ++ collapseNL [] := collapseNL_through t htnl []
      simpa [collapseNL_nil] using h2
    | cons m ts'' =>
      have hj : joinSep ['\n'] (t :: m :: ts'') = t ++ ('\n' :: joinSep ['\n'] (m :: ts'')) := by
        show t ++ ['\n'] ++ joinSep ['\n'] (m :: ts'') = _
        rw [List.append_assoc]
        rfl
      rw [hj, collapseNL_through t htnl, collapseNL_nl]
      obtain ⟨hmne, hmnl⟩ := h m (by simp)
      have hmhead : ∃ a, m.head? = some a ∧ a ≠ '\n' := by
        cases m with
        | nil => exact absurd rfl hmne
        | cons x xs =>
          refine ⟨x, rfl, ?_⟩
          intro hcon ; subst hcon ; exact hmnl (by simp)
      obtain ⟨a, hahead, hanl⟩ := hmhead
      have hjhead : (joinSep ['\n'] (m :: ts'')).head? = some a := by
        rw [joinSep_head? _ m ts'' hmne] ; exact hahead
      rw [dropWhile_head?_no _ _ a hjhead (by simpa using hanl)]
      rw [ih (fun r hr => h r (List.mem_cons_of_mem _ hr))]

theorem joinSep_getLast? (sep : List Char) (ts : List (List Char)) (q : List Char)
    (hlast : ts.getLast? = some q) (hne : ∀ t ∈ ts, t ≠ []) :
    (joinSep sep ts).getLast? = q.getLast? := by
  induction ts with
  | nil => simp at hlast
  | cons t ts' ih =>
    cases ts' with
    | nil =>
      simp at hlast
      subst hlast
      rfl
    | cons m ts'' =>
      rw [List.getLast?_cons_cons] at hlast
      have hj : joinSep sep (t :: m :: ts'') = (t ++ sep) ++ joinSep sep (m :: ts'') := by
        rfl
      rw [hj, List.getLast?_append_of_ne_nil _ (joinSep_ne_nil sep m ts'' (hne m (by simp)))]
      exact ih hlast (fun r hr => hne r (List.mem_cons_of_mem _ hr))

theorem cleanupText_joinSep (ts : List (List Char)) (hne : ts ≠ [])
    (h : ∀ t ∈ ts, t ≠ [] ∧ jsTrim t = t ∧ '\n' ∉ t ∧ '\u00A0' ∉ t) :
    cleanupText (joinSep ['\n'] ts) = joinSep ['\n'] ts := by
  unfold cleanupText
  rw [map_id_of_mem _ _ ?hmap]
  case hmap =>
    intro c hc
    have : c ≠ '\u00A0' := by
      rcases joinSep_chars _ _ _ hc with ⟨t, ht, hct⟩ | h2
      · intro hcon ; subst hcon ; exact (h t ht).2.2.2 hct
      · intro hcon ; subst hcon ; simp at h2
    rw [if_neg this]
  rw [collapseNL_joinSep ts (fun t ht => ⟨(h t ht).1, (h t ht).2.2.1⟩)]
  apply jsTrim_fix
  · intro a ha
    rcases hts : ts with _ | ⟨t, ts'⟩
    · exact absurd hts hne
    · subst hts
      rw [joinSep_head? _ t ts' (h t (by simp)).1] at ha
      apply jsTrim_head? t
      rw [(h t (by simp)).2.1]
      exact ha
  · intro b hb
    rcases hlast : ts.getLast? with _ | q
    · rw [List.getLast?_eq_none_iff] at hlast
      exact absurd hlast hne
    · have hq := List.mem_of_mem_getLast? hlast
      rw [joinSep_getLast? _ ts q hlast (fun t ht => (h t ht).1)] at hb
      apply jsTrim_getLast? q
      rw [(h q hq).2.1]
      exact hb

theorem replaceBrL_paragraphs (ts : List (List Char)) :
    replaceBrL (ts.map (fun t => Node.p [Node.text t])) =
      ts.map (fun t => Node.p [Node.text t]) := by
  induction ts with
  | nil => rfl
  | cons t ts' ih =>
    show Node.p (replaceBrL [Node.text t]) :: replaceBrL (ts'.map _) = _
    rw [ih]
    rfl

theorem removeEmptyParagraphsL_text_singleton (t : List Char) :
    removeEmptyParagraphsL [Node.text t] = [Node.text t] := by
  rw [removeEmptyParagraphsL_text, removeEmptyParagraphsL_nil]

theorem paragraph_guard_false (t : List Char) (htne : t ≠ []) (httrim : jsTrim t = t) :
    ¬(jsTrim (textContentL [Node.text t]) = [] ∨
      jsTrim (textContentL [Node.text t]) = ['\u00A0']) := by
  have htc : textContentL [Node.text t] = t := by simp [textContentL, textContentN]
  rw [htc, httrim]
  rintro (hc | hc)
  · exact htne hc
  · rw [hc] at httrim
    exact absurd httrim (by decide)

theorem pipeTree_paragraphs : ∀ (ts : List (List Char)),
    (∀ t ∈ ts, t ≠ [] ∧ jsTrim t = t) →
    textContentL (removeEmptyParagraphsL (insertAfterPsL (replaceBrL
      (ts.map (fun t => Node.p [Node.text t]))))) = joinSep ['\n'] ts := by
  intro ts
  induction ts with
  | nil => intro _ ; rfl
  | cons t ts' ih =>
    intro h
    obtain ⟨htne, httrim⟩ := h t (by simp)
    rw [replaceBrL_paragraphs]
    cases ts' with
    | nil =>
      show textContentL (removeEmptyParagraphsL (insertAfterPsL [Node.p [Node.text t]])) = _
      have h2 : insertAfterPsL [Node.p [Node.text t]] = [Node.p [Node.text t]] := rfl
      rw [h2, removeEmptyParagraphsL_p, if_neg (paragraph_guard_false t htne httrim),
        removeEmptyParagraphsL_nil, removeEmptyParagraphsL_text_singleton]
      simp [textContentL, textContentN, joinSep]
    | cons m ts'' =>
      have hmap : (t :: m :: ts'').map (fun t => Node.p [Node.text t]) =
          Node.p [Node.text t] :: Node.p [Node.text m] ::
            (ts''.map (fun t => Node.p [Node.text t])) := rfl
      rw [hmap]
      have hins : insertAfterPsL (Node.p [Node.text t] :: Node.p [Node.text m] ::
          ts''.map (fun t => Node.p [Node.text t])) =
          Node.p (insertAfterPsL [Node.text t]) :: Node.text ['\n'] ::
            insertAfterPsL (Node.p [Node.text m] :: ts''.map (fun t => Node.p [Node.text t])) := rfl
      rw [hins]
      have htno : insertAfterPsL [Node.text t] = [Node.text t] := rfl
      rw [htno, removeEmptyParagraphsL_p, if_neg (paragraph_guard_false t htne httrim),
        removeEmptyParagraphsL_text_singleton, removeEmptyParagraphsL_text]
      have hIH := ih (fun r hr => h r (List.mem_cons_of_mem _ hr))
      rw [replaceBrL_paragraphs] at hIH
      simp only [List.map] at hIH
      show (t ++ []) ++ ('\n' :: textContentL (removeEmptyParagraphsL (insertAfterPsL
        (Node.p [Node.text m] :: ts''.map (fun t => Node.p [Node.text t]))))) = _
      rw [hIH]
      show (t ++ []) ++ ('\n' :: joinSep ['\n'] (m :: ts'')) =
        t ++ ['\n'] ++ joinSep ['\n'] (m :: ts'')
      simp

theorem htmlToTextTree_paragraphs (ts : List (List Char)) (hne : ts ≠ [])
    (h : ∀ t ∈ ts, t ≠ [] ∧ jsTrim t = t ∧ '\n' ∉ t ∧ '\u00A0' ∉ t) :
    htmlToTextTree (ts.map fun t => Node.p [Node.text t]) = joinSep ['\n'] ts := by
  unfold htmlToTextTree
  rw [pipeTree_paragraphs ts (fun t ht => ⟨(h t ht).1, (h t ht).2.1⟩),
    cleanupText_joinSep ts hne h]

theorem htmlToTextTree_br (a b : List Char) (ha : a ≠ []) (hb : b ≠ [])
    (hta : jsTrim a = a) (htb : jsTrim b = b) (hna : '\n' ∉ a) (hnb : '\n' ∉ b)
    (hsa : '\u00A0' ∉ a) (hsb : '\u00A0' ∉ b) :
    htmlToTextTree [Node.text a, Node.br, Node.text b] = a ++ '\n' :: b := by
  unfold htmlToTextTree
  have h0 : insertAfterPsL (replaceBrL [Node.text a, Node.br, Node.text b]) =
      [Node.text a, Node.text ['\n'], Node.text b] := rfl
  rw [h0, removeEmptyParagraphsL_text, removeEmptyParagraphsL_text,
    removeEmptyParagraphsL_text, removeEmptyParagraphsL_nil]
  have h2 : textContentL [Node.text a, Node.text ['\n'], Node.text b] =
      joinSep ['\n'] [a, b] := by
    show a ++ (['\n'] ++ (b ++ [])) = a ++ ['\n'] ++ b
    simp
  rw [h2, cleanupText_joinSep [a, b] (by simp) ?hcond]
  case hcond =>
    intro t ht
    rcases List.mem_cons.mp ht with h1 | h1
    · subst h1
      exact ⟨ha, hta, hna, hsa⟩
    · have h3 : t = b := by simpa using h1
      subst h3
      exact ⟨hb, htb, hnb, hsb⟩
  show a ++ ['\n'] ++ b = a ++ '\n' :: b
  simp

/-- C5: `<br>` elements become literal newlines in place and adjacent
paragraphs are separated by exactly one newline: concretely,
`htmlToText '<p>Hello</p><p>World</p>' = 'Hello\nWorld'` and
`htmlToText 'Line1<br>Line2' = 'Line1\nLine2'`; in general, a fragment
of `n` simple paragraphs is rendered as the paragraph texts joined by
single newlines, and a text–`<br>`–text fragment as the two texts joined
by one newline. -/
theorem claim_C5_line_break_conversion :
    htmlToText "<p>Hello</p><p>World</p>" = "Hello\nWorld" ∧
    htmlToText "Line1<br>Line2" = "Line1\nLine2" ∧
    (∀ ts : List (List Char), ts ≠ [] →
      (∀ t ∈ ts, t ≠ [] ∧ jsTrim t = t ∧ '\n' ∉ t ∧ '\u00A0' ∉ t) →
      htmlToTextTree (ts.map fun t => Node.p [Node.text t]) = joinSep ['\n'] ts) ∧
    (∀ a b : List Char, a ≠ [] → b ≠ [] → jsTrim a = a → jsTrim b = b →
      '\n' ∉ a → '\n' ∉ b → '\u00A0' ∉ a → '\u00A0' ∉ b →
      htmlToTextTree [Node.text a, Node.br, Node.text b] = a ++ '\n' :: b) :=
  ⟨by decide, by decide, htmlToTextTree_paragraphs, htmlToTextTree_br⟩

/-- Witness for C5: two concrete paragraphs and a concrete `<br>` pair. -/
theorem claim_C5_witness :
    htmlToTextTree ([['X'], ['Y']].map fun t => Node.p [Node.text t]) =
        joinSep ['\n'] [['X'], ['Y']] ∧
      htmlToTextTree [Node.text ['U'], Node.br, Node.text ['V']] = ['U'] ++ '\n' :: ['V'] :=
  ⟨claim_C5_line_break_conversion.2.2.1 [['X'], ['Y']] (by decide) (by decide),
    claim_C5_line_break_conversion.2.2.2 ['U'] ['V'] (by decide) (by decide) (by decide)
      (by decide) (by decide) (by decide) (by decide) (by decide)⟩

theorem splitGo_noSep : ∀ (cs cur : List Char) (acc : List (List Char)),
    hasSep cs = false → splitGo cs cur acc = acc ++ [cur ++ cs] := by
  intro cs
  induction cs with
  | nil => intro cur acc _ ; rw [splitGo_nil] ; simp
  | cons c rest ih =>
    intro cur acc hsep
    have hsep2 : hasSep rest = false := by
      unfold hasSep at hsep
      exact (Bool.or_eq_false_iff.mp hsep).2
    by_cases hc : c = '\n'
    · subst hc
      have hnw : (rest.takeWhile isJsSpace).contains '\n' = false := by
        unfold hasSep at hsep
        have h1 := (Bool.or_eq_false_iff.mp hsep).1
        simpa using Bool.and_eq_false_iff.mp h1
      rw [splitGo_nl_nosep _ _ _ hnw, ih _ _ hsep2]
      simp
    · rw [splitGo_other _ _ _ _ hc, ih _ _ hsep2]
      simp

theorem textToCardHTMLs_single_paragraph (p : String)
    (htrim : jsTrim p.data ≠ []) (hsep : hasSep p.data = false) :
    textToCardHTMLs p = .arr [String.mk (cardHTMLOfSection (jsTrim p.data))] := by
  have hpne : p ≠ "" := by
    intro hcon
    rw [hcon] at htrim
    exact htrim rfl
  unfold textToCardHTMLs
  rw [if_neg hpne]
  congr 1
  rw [splitSections_eq_go, splitGo_noSep p.data [] [] hsep]
  simp only [List.nil_append, List.map]
  rw [List.filter_cons]
  simp only [List.filter_nil]
  rw [if_pos (by simpa using htrim)]
  rfl

theorem splitOnNL_cons_nl (z : List Char) : splitOnNL ('\n' :: z) = [] :: splitOnNL z := by
  simp [splitOnNL]

theorem splitOnNL_cons_other (a : Char) (z : List Char) (ha : a ≠ '\n') (l : List Char)
    (ls : List (List Char)) (h : splitOnNL z = l :: ls) :
    splitOnNL (a :: z) = (a :: l) :: ls := by
  simp only [splitOnNL, if_neg ha, h]

theorem splitOnNL_append_nl (z : List Char) :
    splitOnNL (z ++ ['\n']) = splitOnNL z ++ [[]] := by
  induction z with
  | nil => rfl
  | cons a z' ih =>
    by_cases ha : a = '\n'
    · subst ha
      rw [List.cons_append, splitOnNL_cons_nl, splitOnNL_cons_nl, ih]
      rfl
    · rcases hS : splitOnNL z' with _ | ⟨l, ls⟩
      · exact absurd hS (splitOnNL_ne_nil z')
      · rw [hS] at ih
        rw [List.cons_append, splitOnNL_cons_other a _ ha _ _ ih,
          splitOnNL_cons_other a _ ha _ _ hS]
        rfl

theorem splitOnNL_append_other (c : Char) (hc : c ≠ '\n') : ∀ (z : List Char)
    (l0 : List Char), (splitOnNL z).getLast? = some l0 →
    splitOnNL (z ++ [c]) = (splitOnNL z).dropLast ++ [l0 ++ [c]] := by
  intro z
  induction z with
  | nil =>
    intro l0 h
    have h2 : l0 = [] := by
      show l0 = [] ; injection h with h ; exact h.symm
    subst h2
    exact splitOnNL_cons_other c [] hc [] [] rfl
  | cons a z' ih =>
    intro l0 h
    rcases hS : splitOnNL z' with _ | ⟨l, ls⟩
    · exact absurd hS (splitOnNL_ne_nil z')
    · by_cases ha : a = '\n'
      · subst ha
        rw [splitOnNL_cons_nl, hS] at h
        rw [List.getLast?_cons_cons] at h
        rw [← hS] at h
        rw [List.cons_append, splitOnNL_cons_nl, ih l0 h, splitOnNL_cons_nl, hS,
          show (([] : List Char) :: l :: ls).dropLast = [] :: (l :: ls).dropLast from rfl]
        rfl
      · rw [splitOnNL_cons_other a _ ha _ _ hS] at h
        cases ls with
        | nil =>
          have hl0 : l0 = a :: l := by
            simp at h ; exact h.symm
          subst hl0
          have hIH : splitOnNL (z' ++ [c]) = [l ++ [c]] := by
            rw [ih (l ++ []) (by rw [hS] ; simp), hS]
            simp
          rw [List.cons_append, splitOnNL_cons_other a _ ha _ _ hIH,
            splitOnNL_cons_other a _ ha _ _ hS]
          rfl
        | cons s ls' =>
          rw [List.getLast?_cons_cons] at h
          have hS' : (splitOnNL z').getLast? = some l0 := by
            rw [hS, List.getLast?_cons_cons] ; exact h
          have hIH := ih l0 hS'
          rw [hS] at hIH
          rw [show (l :: s :: ls').dropLast = l :: (s :: ls').dropLast from rfl] at hIH
          rw [List.cons_append, splitOnNL_cons_other a _ ha _ _ hIH,
            splitOnNL_cons_other a _ ha _ _ hS]
          rfl

theorem jsTrim_cons_space (c : Char) (l : List Char) (hc : isJsSpace c) :
    jsTrim (c :: l) = jsTrim l := by
  unfold jsTrim
  rw [show (c :: l).dropWhile isJsSpace = l.dropWhile isJsSpace from by
    simp [List.dropWhile, hc]]

theorem dropWhile_append_ne (p : Char → Bool) (x y : List Char)
    (h : x.dropWhile p ≠ []) : (x ++ y).dropWhile p = x.dropWhile p ++ y := by
  induction x with
  | nil => exact absurd rfl h
  | cons a x' ih =>
    by_cases hp : p a
    · have h2 : (a :: x').dropWhile p = x'.dropWhile p := by simp [List.dropWhile, hp]
      rw [h2] at h ⊢
      rw [List.cons_append, show ((a :: (x' ++ y)).dropWhile p = (x' ++ y).dropWhile p) from by
        simp [List.dropWhile, hp]]
      exact ih h
    · have hp2 : p a = false := by simpa using hp
      rw [List.cons_append, dropWhile_no_head p a _ hp2, dropWhile_no_head p a x' hp2]
      rfl

theorem jsTrim_append_space (l : List Char) (c : Char) (hc : isJsSpace c) :
    jsTrim (l ++ [c]) = jsTrim l := by
  by_cases hall : l.dropWhile isJsSpace = []
  · have h1 : ∀ x ∈ l, isJsSpace x := List.dropWhile_eq_nil_iff.mp hall
    rw [jsTrim_of_all_space l h1, jsTrim_of_all_space (l ++ [c]) ?hall2]
    case hall2 =>
      intro x hx
      rcases List.mem_append.mp hx with h2 | h2
      · exact h1 x h2
      · simp at h2 ; subst h2 ; exact hc
  · unfold jsTrim
    rw [dropWhile_append_ne _ _ _ hall, List.reverse_append]
    show ((c :: (l.dropWhile isJsSpace).reverse).dropWhile isJsSpace).reverse = _
    rw [show (c :: (l.dropWhile isJsSpace).reverse).dropWhile isJsSpace =
      ((l.dropWhile isJsSpace).reverse).dropWhile isJsSpace from by
        simp [List.dropWhile, hc]]

theorem cleanedLines_cons_space (c : Char) (z : List Char) (hc : isJsSpace c) :
    cleanedLines (c :: z) = cleanedLines z := by
  by_cases hcn : c = '\n'
  · subst hcn
    unfold cleanedLines
    rw [splitOnNL_cons_nl]
    show List.filter _ (jsTrim [] :: List.map jsTrim (splitOnNL z)) = _
    rw [List.filter_cons]
    rw [if_neg (by decide)]
  · rcases hS : splitOnNL z with _ | ⟨l, ls⟩
    · exact absurd hS (splitOnNL_ne_nil z)
    · unfold cleanedLines
      rw [splitOnNL_cons_other c z hcn l ls hS, hS]
      simp only [List.map]
      rw [jsTrim_cons_space c l hc]

theorem cleanedLines_dropWhile (cs : List Char) :
    cleanedLines (cs.dropWhile isJsSpace) = cleanedLines cs := by
  induction cs with
  | nil => rfl
  | cons a rest ih =>
    by_cases ha : isJsSpace a
    · rw [show (a :: rest).dropWhile isJsSpace = rest.dropWhile isJsSpace from by
        simp [List.dropWhile, ha], ih, cleanedLines_cons_space a rest ha]
    · rw [dropWhile_no_head _ _ _ (by simpa using ha)]

theorem cleanedLines_append_space (z : List Char) (c : Char) (hc : isJsSpace c) :
    cleanedLines (z ++ [c]) = cleanedLines z := by
  by_cases hcn : c = '\n'
  · subst hcn
    unfold cleanedLines
    rw [splitOnNL_append_nl, List.map_append, List.filter_append,
      show List.filter (fun l => !l.isEmpty) (List.map jsTrim [[]]) = [] from by decide]
    simp
  · rcases hL : (splitOnNL z).getLast? with _ | l0
    · rw [List.getLast?_eq_none_iff] at hL
      exact absurd hL (splitOnNL_ne_nil z)
    · unfold cleanedLines
      rw [splitOnNL_append_other c hcn z l0 hL, List.map_append, List.filter_append]
      have hrecon : (splitOnNL z).dropLast ++ [l0] = splitOnNL z := by
        rcases hS : splitOnNL z with _ | ⟨l, ls⟩
        · exact absurd hS (splitOnNL_ne_nil z)
        · rw [hS] at hL
          have := List.getLast?_eq_getLast (l :: ls) (by simp)
          rw [this] at hL
          injection hL with hL
          rw [← hL]
          exact List.dropLast_concat_getLast (by simp)
      conv_rhs => rw [← hrecon]
      rw [List.map_append, List.filter_append]
      congr 1
      simp only [List.map]
      rw [jsTrim_append_space l0 c hc]

theorem cleanedLines_append_spaces (x : List Char) : ∀ (post : List Char),
    (∀ c ∈ post, isJsSpace c) → cleanedLines (x ++ post) = cleanedLines x := by
  intro post
  induction post using List.reverseRecOn generalizing x with
  | nil => intro _ ; simp
  | append_singleton ys c ih =>
    intro h
    rw [show x ++ (ys ++ [c]) = (x ++ ys) ++ [c] from by rw [List.append_assoc],
      cleanedLines_append_space _ c (h c (by simp)), ih x (fun d hd => h d (by simp [hd]))]

theorem cleanedLines_jsTrim (cs : List Char) :
    cleanedLines (jsTrim cs) = cleanedLines cs := by
  have hpost : ∀ c ∈ ((cs.dropWhile isJsSpace).reverse.takeWhile isJsSpace).reverse,
      isJsSpace c := by
    intro c hc
    rw [List.mem_reverse] at hc
    exact List.mem_takeWhile_imp hc
  have hA : cs.dropWhile isJsSpace =
      jsTrim cs ++ ((cs.dropWhile isJsSpace).reverse.takeWhile isJsSpace).reverse := by
    conv_lhs => rw [← List.reverse_reverse (cs.dropWhile isJsSpace),
      ← List.takeWhile_append_dropWhile isJsSpace (cs.dropWhile isJsSpace).reverse]
    rw [List.reverse_append]
    rfl
  rw [← cleanedLines_dropWhile cs, hA, cleanedLines_append_spaces _ _ hpost]

theorem takeWhile_all_stop (p : Char → Bool) (A : List Char) (d : Char) (X : List Char)
    (hA : ∀ c ∈ A, p c = true) (hd : p d = false) :
    (A ++ d :: X).takeWhile p = A := by
  induction A with
  | nil => simp [List.takeWhile, hd]
  | cons a A' ih =>
    simp only [List.cons_append, List.takeWhile]
    rw [hA a (by simp)]
    simp only [List.append_eq]
    rw [ih (fun c hc => hA c (List.mem_cons_of_mem _ hc))]

theorem drop_after_marker (A : List Char) (d : Char) (X : List Char) :
    (A ++ d :: X).drop (A.length + 1) = X := by
  have h1 : A ++ d :: X = (A ++ [d]) ++ X := by simp
  have h2 : (A ++ [d]).length = A.length + 1 := by simp
  rw [h1, ← h2, List.drop_left]

theorem splitAtClose_cons_ne (c : Char) (z : List Char) (hc : c ≠ '<') :
    splitAtClose (c :: z) = (c :: (splitAtClose z).1, (splitAtClose z).2) := by
  rw [splitAtClose.eq_def]
  split
  · rename_i heq
    injection heq with h1 _
    exact absurd h1 hc
  · rename_i r heq
    injection heq with h1 h2
    subst h1
    subst h2
    rfl
  · rename_i heq
    exact absurd heq (by simp)

theorem splitAtClose_lt_ne (d : Char) (z : List Char) (hd : d ≠ '/') :
    splitAtClose ('<' :: d :: z) =
      ('<' :: (splitAtClose (d :: z)).1, (splitAtClose (d :: z)).2) := by
  rw [splitAtClose.eq_def]
  split
  · rename_i heq
    injection heq with _ h2
    injection h2 with h2 _
    exact absurd h2 hd
  · rename_i r heq
    injection heq with h1 h2
    subst h1
    subst h2
    rfl
  · rename_i heq
    exact absurd heq (by simp)

theorem splitAtClose_text (l : List Char) (hl : '<' ∉ l) : ∀ (y : List Char),
    splitAtClose (l ++ y) = (l ++ (splitAtClose y).1, (splitAtClose y).2) := by
  induction l with
  | nil => intro y ; simp
  | cons c l' ih =>
    intro y
    have hc : c ≠ '<' := by
      intro hcon ; subst hcon ; exact hl (by simp)
    rw [List.cons_append, splitAtClose_cons_ne c _ hc,
      ih (fun hx => hl (List.mem_cons_of_mem _ hx)) y]
    rfl

theorem splitAtClose_br_skip (y : List Char) :
    splitAtClose ('<' :: 'b' :: 'r' :: '>' :: y) =
      ('<' :: 'b' :: 'r' :: '>' :: (splitAtClose y).1, (splitAtClose y).2) := by
  rw [splitAtClose_lt_ne 'b' _ (by decide),
    splitAtClose_cons_ne 'b' _ (by decide),
    splitAtClose_cons_ne 'r' _ (by decide),
    splitAtClose_cons_ne '>' _ (by decide)]

theorem splitAtClose_body (ls : List (List Char)) (h : ∀ l ∈ ls, '<' ∉ l)
    (y : List Char) :
    splitAtClose (joinSep "<br>".data ls ++ '<' :: '/' :: 'p' :: '>' :: y) =
      (joinSep "<br>".data ls, y) := by
  induction ls with
  | nil =>
    show splitAtClose ([] ++ '<' :: '/' :: 'p' :: '>' :: y) = ([], y)
    rfl
  | cons l ls' ih =>
    cases ls' with
    | nil =>
      show splitAtClose (l ++ '<' :: '/' :: 'p' :: '>' :: y) = (l, y)
      rw [splitAtClose_text l (h l (by simp)) _]
      show (l ++ [], y) = (l, y)
      simp
    | cons l2 ls'' =>
      have hjoin : joinSep "<br>".data (l :: l2 :: ls'') =
          l ++ ('<' :: 'b' :: 'r' :: '>' :: joinSep "<br>".data (l2 :: ls'')) := by
        show l ++ "<br>".data ++ joinSep "<br>".data (l2 :: ls'') = _
        rw [List.append_assoc]
        rfl
      rw [hjoin, List.append_assoc]
      rw [splitAtClose_text l (h l (by simp)) _]
      rw [show ('<' :: 'b' :: 'r' :: '>' :: joinSep "<br>".data (l2 :: ls'')) ++
          '<' :: '/' :: 'p' :: '>' :: y =
          '<' :: 'b' :: 'r' :: '>' ::
            (joinSep "<br>".data (l2 :: ls'') ++ '<' :: '/' :: 'p' :: '>' :: y) from rfl]
      rw [splitAtClose_br_skip, ih (fun r hr => h r (List.mem_cons_of_mem _ hr))]

theorem parse_text_only (l : List Char) (hne : l ≠ [])
    (hchars : ∀ c ∈ l, c ≠ '<' ∧ c ≠ '&') : parseNodes l = [.text l] := by
  cases l with
  | nil => exact absurd rfl hne
  | cons c l' =>
    obtain ⟨hc, ha⟩ := hchars c (by simp)
    rw [parseNodes_text c l' hc ha]
    have hall : (c :: l').takeWhile (fun d => d != '<' && d != '&') = c :: l' := by
      apply List.takeWhile_eq_self_iff.mpr
      intro x hx
      obtain ⟨h1, h2⟩ := hchars x hx
      simp [h1, h2]
    rw [hall, List.drop_length, parseNodes_nil]

theorem parse_text_head (l : List Char) (hne : l ≠ [])
    (hchars : ∀ c ∈ l, c ≠ '<' ∧ c ≠ '&') (X : List Char) :
    parseNodes (l ++ '<' :: X) = .text l :: parseNodes ('<' :: X) := by
  cases l with
  | nil => exact absurd rfl hne
  | cons c l' =>
    obtain ⟨hc, ha⟩ := hchars c (by simp)
    rw [show (c :: l') ++ '<' :: X = c :: (l' ++ '<' :: X) from rfl,
      parseNodes_text c _ hc ha]
    have hchunk : (c :: (l' ++ '<' :: X)).takeWhile (fun d => d != '<' && d != '&')
        = c :: l' := by
      show ((c :: l') ++ '<' :: X).takeWhile (fun d => d != '<' && d != '&') = c :: l'
      apply takeWhile_all_stop
      · intro x hx
        obtain ⟨h1, h2⟩ := hchars x hx
        simp [h1, h2]
      · simp
    rw [hchunk]
    rw [show (c :: (l' ++ '<' :: X)).drop (c :: l').length =
      ((c :: l') ++ ('<' :: X)).drop (c :: l').length from rfl, List.drop_left]

theorem parse_br_head (X : List Char) :
    parseNodes ('<' :: 'b' :: 'r' :: '>' :: X) = .br :: parseNodes X :=
  parseNodes_brT _ _ rfl

theorem parse_brJoin (ls : List (List Char))
    (h : ∀ l ∈ ls, l ≠ [] ∧ ∀ c ∈ l, c ≠ '<' ∧ c ≠ '&') :
    parseNodes (joinSep "<br>".data ls) = brNodes ls := by
  induction ls with
  | nil => rfl
  | cons l ls' ih =>
    cases ls' with
    | nil =>
      show parseNodes l = [Node.text l]
      exact parse_text_only l (h l (by simp)).1 (h l (by simp)).2
    | cons l2 ls'' =>
      have hjoin : joinSep "<br>".data (l :: l2 :: ls'') =
          l ++ ('<' :: 'b' :: 'r' :: '>' :: joinSep "<br>".data (l2 :: ls'')) := by
        show l ++ "<br>".data ++ joinSep "<br>".data (l2 :: ls'') = _
        rw [List.append_assoc]
        rfl
      rw [hjoin, parse_text_head l (h l (by simp)).1 (h l (by simp)).2,
        parse_br_head, ih (fun r hr => h r (List.mem_cons_of_mem _ hr))]
      rfl

theorem tagOf_pOpenRest (Y : List Char) :
    tagOf ("p style=\"text-align:center;\">".data ++ Y) = .pT Y := by
  have hshape : "p style=\"text-align:center;\">".data ++ Y =
      'p' :: ' ' :: ("style=\"text-align:center;\"".data ++ '>' :: Y) := by
    rfl
  rw [hshape]
  show TagTok.pT (("style=\"text-align:center;\"".data ++ '>' :: Y).drop
    ((("style=\"text-align:center;\"".data ++ '>' :: Y).takeWhile
      (fun d => d != '>')).length + 1)) = TagTok.pT Y
  rw [takeWhile_all_stop _ _ _ _ (by decide) (by decide)]
  rw [drop_after_marker]

theorem parse_fragment (ls : List (List Char))
    (h : ∀ l ∈ ls, l ≠ [] ∧ ∀ c ∈ l, c ≠ '<' ∧ c ≠ '&') :
    parseNodes (pOpen ++ joinSep "<br>".data ls ++ pClose) = [.p (brNodes ls)] := by
  have hshape : pOpen ++ joinSep "<br>".data ls ++ pClose =
      '<' :: ("p style=\"text-align:center;\">".data ++
        (joinSep "<br>".data ls ++ '<' :: '/' :: 'p' :: '>' :: [])) := by
    show ("<p style=\"text-align:center;\">".data ++ joinSep "<br>".data ls) ++ pClose = _
    rw [List.append_assoc]
    rfl
  have hlt : ∀ l ∈ ls, '<' ∉ l := by
    intro l hl hmem
    exact ((h l hl).2 '<' hmem).1 rfl
  rw [hshape, parseNodes_pT _ _ (tagOf_pOpenRest _)]
  rw [splitAtClose_body ls hlt []]
  show Node.p (parseNodes (joinSep "<br>".data ls)) :: parseNodes [] = _
  rw [parse_brJoin ls h, parseNodes_nil]

theorem jsTrim_ne_nbsp (x : List Char) : jsTrim x ≠ ['\u00A0'] := by
  intro h
  have h2 := jsTrim_head? x '\u00A0' (by rw [h] ; rfl)
  exact absurd h2 (by decide)

theorem mem_joinSep (sep : List Char) (ts : List (List Char)) (t : List Char) (c : Char)
    (ht : t ∈ ts) (hc : c ∈ t) : c ∈ joinSep sep ts := by
  induction ts with
  | nil => simp at ht
  | cons t' ts' ih =>
    cases ts' with
    | nil =>
      have h2 : t = t' := by simpa using ht
      subst h2
      exact hc
    | cons t2 ts'' =>
      show c ∈ t' ++ sep ++ joinSep sep (t2 :: ts'')
      rcases List.mem_cons.mp ht with h2 | h2
      · subst h2
        exact List.mem_append.mpr (Or.inl (List.mem_append.mpr (Or.inl hc)))
      · exact List.mem_append.mpr (Or.inr (ih h2))

theorem insert_all_text (X : List Node) (h : ∀ n ∈ X, ∃ cs, n = .text cs) :
    insertAfterPsL X = X := by
  induction X with
  | nil => rfl
  | cons n X' ih =>
    obtain ⟨cs, hcs⟩ := h n (by simp)
    subst hcs
    cases X' with
    | nil => rfl
    | cons m X'' =>
      show insertAfterPsN (.text cs) :: insertAfterPsL (m :: X'') = _
      rw [ih (fun r hr => h r (List.mem_cons_of_mem _ hr))]
      rfl

theorem remove_all_text (X : List Node) (h : ∀ n ∈ X, ∃ cs, n = .text cs) :
    removeEmptyParagraphsL X = X := by
  induction X with
  | nil => rfl
  | cons n X' ih =>
    obtain ⟨cs, hcs⟩ := h n (by simp)
    subst hcs
    rw [removeEmptyParagraphsL_text, ih (fun r hr => h r (List.mem_cons_of_mem _ hr))]

theorem replaceBr_brNodes_allText (ls : List (List Char)) :
    ∀ n ∈ replaceBrL (brNodes ls), ∃ cs, n = Node.text cs := by
  induction ls with
  | nil => intro n hn ; simp [brNodes, replaceBrL] at hn
  | cons l ls' ih =>
    cases ls' with
    | nil =>
      intro n hn
      have h2 : replaceBrL (brNodes [l]) = [Node.text l] := rfl
      rw [h2] at hn
      have h3 : n = Node.text l := by simpa using hn
      exact ⟨l, h3⟩
    | cons l2 ls'' =>
      intro n hn
      have h2 : replaceBrL (brNodes (l :: l2 :: ls'')) =
          Node.text l :: Node.text ['\n'] :: replaceBrL (brNodes (l2 :: ls'')) := rfl
      rw [h2] at hn
      rcases List.mem_cons.mp hn with h3 | h3
      · exact ⟨l, h3⟩
      · rcases List.mem_cons.mp h3 with h4 | h4
        · exact ⟨['\n'], h4⟩
        · exact ih n h4

theorem textContent_replaceBr_brNodes (ls : List (List Char)) :
    textContentL (replaceBrL (brNodes ls)) = joinSep ['\n'] ls := by
  induction ls with
  | nil => rfl
  | cons l ls' ih =>
    cases ls' with
    | nil =>
      show l ++ [] = l
      simp
    | cons l2 ls'' =>
      show l ++ (['\n'] ++ textContentL (replaceBrL (brNodes (l2 :: ls'')))) =
        l ++ ['\n'] ++ joinSep ['\n'] (l2 :: ls'')
      rw [ih]
      simp

theorem htmlToTextTree_fragment (ls : List (List Char)) (hne : ls ≠ [])
    (h : ∀ l ∈ ls, l ≠ [] ∧ jsTrim l = l ∧ '\n' ∉ l ∧ '\u00A0' ∉ l) :
    htmlToTextTree [Node.p (brNodes ls)] = joinSep ['\n'] ls := by
  unfold htmlToTextTree
  have h1 : replaceBrL [Node.p (brNodes ls)] = [Node.p (replaceBrL (brNodes ls))] := rfl
  have h2 : insertAfterPsL [Node.p (replaceBrL (brNodes ls))] =
      [Node.p (insertAfterPsL (replaceBrL (brNodes ls)))] := rfl
  rw [h1, h2, insert_all_text _ (replaceBr_brNodes_allText ls), removeEmptyParagraphsL_p]
  have hguard : ¬(jsTrim (textContentL (replaceBrL (brNodes ls))) = [] ∨
      jsTrim (textContentL (replaceBrL (brNodes ls))) = ['\u00A0']) := by
    rw [textContent_replaceBr_brNodes]
    rintro (hc | hc)
    · rcases hls : ls with _ | ⟨l1, ls'⟩
      · exact hne hls
      · subst hls
        obtain ⟨hl1ne, hl1trim, _, _⟩ := h l1 (by simp)
        rcases hl1 : l1 with _ | ⟨c1, t1⟩
        · exact hl1ne hl1
        · have hc1 : isJsSpace c1 = false := by
            apply jsTrim_head? l1
            rw [hl1trim, hl1] ; rfl
          have hmem : c1 ∈ joinSep ['\n'] (l1 :: ls') :=
            mem_joinSep _ _ l1 c1 (by simp) (by rw [hl1] ; simp)
          have := (jsTrim_eq_nil_iff _).mp hc c1 hmem
          rw [this] at hc1
          simp at hc1
    · exact jsTrim_ne_nbsp _ hc
  rw [if_neg hguard, remove_all_text _ (replaceBr_brNodes_allText ls),
    removeEmptyParagraphsL_nil]
  show cleanupText (textContentL (replaceBrL (brNodes ls)) ++ []) = _
  rw [List.append_nil, textContent_replaceBr_brNodes, cleanupText_joinSep ls hne h]

theorem lines_no_nl (cs : List Char) : ∀ line ∈ splitOnNL cs, '\n' ∉ line := by
  induction cs with
  | nil =>
    intro line hline
    have h2 : line = [] := by simpa [splitOnNL] using hline
    subst h2 ; simp
  | cons a rest ih =>
    intro line hline
    by_cases ha : a = '\n'
    · subst ha
      rw [splitOnNL_cons_nl] at hline
      rcases List.mem_cons.mp hline with h2 | h2
      · subst h2 ; simp
      · exact ih line h2
    · rcases hS : splitOnNL rest with _ | ⟨l, ls⟩
      · exact absurd hS (splitOnNL_ne_nil rest)
      · rw [splitOnNL_cons_other a rest ha l ls hS] at hline
        rcases List.mem_cons.mp hline with h2 | h2
        · subst h2
          intro hcon
          rcases List.mem_cons.mp hcon with h3 | h3
          · exact ha h3.symm
          · exact ih l (by rw [hS] ; simp) h3
        · exact ih line (by rw [hS] ; exact List.mem_cons_of_mem _ h2)

theorem mem_of_mem_splitOnNL (cs : List Char) : ∀ line ∈ splitOnNL cs, ∀ c ∈ line, c ∈ cs := by
  induction cs with
  | nil =>
    intro line hline c hcl
    have h2 : line = [] := by simpa [splitOnNL] using hline
    subst h2 ; simp at hcl
  | cons a rest ih =>
    intro line hline c hcl
    by_cases ha : a = '\n'
    · subst ha
      rw [splitOnNL_cons_nl] at hline
      rcases List.mem_cons.mp hline with h2 | h2
      · subst h2 ; simp at hcl
      · exact List.mem_cons_of_mem _ (ih line h2 c hcl)
    · rcases hS : splitOnNL rest with _ | ⟨l, ls⟩
      · exact absurd hS (splitOnNL_ne_nil rest)
      · rw [splitOnNL_cons_other a rest ha l ls hS] at hline
        rcases List.mem_cons.mp hline with h2 | h2
        · subst h2
          rcases List.mem_cons.mp hcl with h3 | h3
          · subst h3 ; simp
          · exact List.mem_cons_of_mem _ (ih l (by rw [hS] ; simp) c h3)
        · exact List.mem_cons_of_mem _
            (ih line (by rw [hS] ; exact List.mem_cons_of_mem _ h2) c hcl)

theorem mem_cleanedLines_chars (sec l : List Char) (c : Char)
    (hl : l ∈ cleanedLines sec) (hc : c ∈ l) : c ∈ sec := by
  unfold cleanedLines at hl
  have h3 := List.mem_of_mem_filter hl
  rcases List.mem_map.mp h3 with ⟨line, hline, hleq⟩
  subst hleq
  exact mem_of_mem_splitOnNL sec line hline c (mem_of_mem_jsTrim _ _ hc)

theorem cleanedLines_no_nl (sec l : List Char) (hl : l ∈ cleanedLines sec) : '\n' ∉ l := by
  unfold cleanedLines at hl
  have h3 := List.mem_of_mem_filter hl
  rcases List.mem_map.mp h3 with ⟨line, hline, hleq⟩
  subst hleq
  intro hcon
  exact lines_no_nl sec line hline (mem_of_mem_jsTrim _ _ hcon)

/-- C1: round-trip for a plain-text paragraph `p` (no HTML
metacharacters, no non-breaking space, non-blank, containing no
blank-line separator): `textToCardHTMLs p` yields a single fragment, and
`htmlToText` of that first fragment equals `p` with each line trimmed
and blank lines collapsed away (`canonText`). -/
theorem claim_C1_round_trip (p : String)
    (h1 : jsTrim p.data ≠ []) (h2 : hasSep p.data = false)
    (h3 : ∀ c ∈ p.data, c ≠ '<' ∧ c ≠ '>' ∧ c ≠ '&' ∧ c ≠ '\u00A0') :
    textToCardHTMLs p = .arr [String.mk (cardHTMLOfSection (jsTrim p.data))] ∧
    htmlToText (firstFragment (textToCardHTMLs p)) = canonText p := by
  have harr := textToCardHTMLs_single_paragraph p h1 h2
  refine ⟨harr, ?_⟩
  rw [harr]
  show htmlToText (String.mk (cardHTMLOfSection (jsTrim p.data))) = canonText p
  have hlines : ∀ l ∈ cleanedLines (jsTrim p.data),
      l ≠ [] ∧ jsTrim l = l ∧ '\n' ∉ l ∧ (∀ c ∈ l, c ≠ '<' ∧ c ≠ '>' ∧ c ≠ '&' ∧ c ≠ '\u00A0') := by
    intro l hl
    obtain ⟨hlne, hltrim⟩ := mem_cleanedLines _ l hl
    refine ⟨hlne, hltrim, cleanedLines_no_nl _ l hl, ?_⟩
    intro c hc
    exact h3 c (mem_of_mem_jsTrim _ _ (mem_cleanedLines_chars _ l c hl hc))
  have hlsne : cleanedLines (jsTrim p.data) ≠ [] := by
    rcases hJ : jsTrim p.data with _ | ⟨c0, t0⟩
    · exact absurd hJ h1
    · refine cleanedLines_ne_nil (c0 :: t0) c0 (by simp) ?_
      apply jsTrim_head? p.data
      rw [hJ] ; rfl
  have hfragne : String.mk (cardHTMLOfSection (jsTrim p.data)) ≠ "" := by
    intro hcon
    have h4 : cardHTMLOfSection (jsTrim p.data) = [] := congrArg String.data hcon
    unfold cardHTMLOfSection at h4
    have h5 := congrArg List.length h4
    simp [pOpen, pClose] at h5
  unfold htmlToText
  rw [if_neg hfragne]
  rw [show (String.mk (cardHTMLOfSection (jsTrim p.data))).data =
    pOpen ++ joinSep "<br>".data (cleanedLines (jsTrim p.data)) ++ pClose from rfl]
  rw [parse_fragment _ (fun l hl => ⟨(hlines l hl).1,
    fun c hc => ⟨((hlines l hl).2.2.2 c hc).1, ((hlines l hl).2.2.2 c hc).2.2.1⟩⟩)]
  rw [htmlToTextTree_fragment _ hlsne (fun l hl => ⟨(hlines l hl).1, (hlines l hl).2.1,
    (hlines l hl).2.2.1, fun hcon => ((hlines l hl).2.2.2 '\u00A0' hcon).2.2.2 rfl⟩)]
  unfold canonText
  rw [cleanedLines_jsTrim]

/-- Witness for C1: the round trip on the paragraph `" He y\nWorld "`. -/
theorem claim_C1_witness :
    textToCardHTMLs " He y\nWorld " =
        .arr [String.mk (cardHTMLOfSection (jsTrim (" He y\nWorld " : String).data))] ∧
      htmlToText (firstFragment (textToCardHTMLs " He y\nWorld ")) =
        canonText " He y\nWorld " :=
  claim_C1_round_trip " He y\nWorld " (by decide) (by decide) (by decide)
